import Mathlib

set_option maxRecDepth 100000

/-!
Verification of the memory-index subsystem of `oxideai/cica` (`src/memory.rs`).

Shallow embedding conventions:
* Rust strings are modelled as `List Char`; Rust `str::len` (a UTF-8 byte
  count) is modelled by `utf8Len`, and Rust `str::trim` / `str::lines` /
  `str::starts_with` by `trimStr` / `rustLines` / `startsWithStr` below.
* The SQLite database behind `MemoryIndex` is modelled as explicit lists of
  rows (`Db`), with SQLite rowid allocation modelled by a fresh-id counter.
* The fastembed embedding model is an external component; it is modelled as a
  function parameter (`EmbedFn`), fallible exactly where the Rust call is.
* The sqlite-vec `vec_distance_cosine` function is external C code; it is
  modelled as an abstract distance-function parameter of `search`.
* Filesystem interaction (`read_dir`, `read_to_string`) is modelled by passing
  the directory listing as a list of `FsEntry`, where a `none` content stands
  for a file whose read failed.
-/

/-- Rust `char::is_whitespace`: the Unicode `White_Space` property, given by
its code points. -/
def isWs (c : Char) : Bool :=
  let n := c.toNat
  n == 0x20 || (Nat.ble 0x9 n && Nat.ble n 0xD) || n == 0x85 || n == 0xA0 ||
  n == 0x1680 || (Nat.ble 0x2000 n && Nat.ble n 0x200A) || n == 0x2028 ||
  n == 0x2029 || n == 0x202F || n == 0x205F || n == 0x3000

/-- Strip leading whitespace (Rust `str::trim_start`). -/
def trimLeftStr (l : List Char) : List Char := l.dropWhile isWs

/-- Strip trailing whitespace (Rust `str::trim_end`). -/
def trimRightStr (l : List Char) : List Char := (l.reverse.dropWhile isWs).reverse

/-- Rust `str::trim`: strip whitespace from both ends. -/
def trimStr (l : List Char) : List Char := trimRightStr (trimLeftStr l)

/-- Split a string at `'\n'` separators (every piece is newline-free). -/
def splitNl : List Char → List (List Char)
  | [] => [[]]
  | c :: cs =>
    if c = '\n' then [] :: splitNl cs
    else
      match splitNl cs with
      | [] => [[c]]
      | l :: ls => (c :: l) :: ls

/-- Strip one trailing `'\r'` from a line, as Rust `str::lines` does. -/
def stripCr (l : List Char) : List Char :=
  if l.getLast? = some '\r' then l.dropLast else l

/-- Rust `str::lines`: split on `'\n'`, drop a final empty piece (so a trailing
newline does not create an extra line), and strip a trailing `'\r'` from each
line. -/
def rustLines (s : List Char) : List (List Char) :=
  let ps := splitNl s
  let ps := if ps.getLast? = some [] then ps.dropLast else ps
  ps.map stripCr

/-- Rust `str::len`: the UTF-8 byte length. -/
def utf8Len (l : List Char) : Nat := (l.map Char.utf8Size).sum

/-- The backtick character, taken from the fence marker string. -/
def fenceHead : Char := "`".data.headI

/-- Rust `str::starts_with`: first argument is the string, second the pattern. -/
def startsWithStr : List Char → List Char → Bool
  | _, [] => true
  | [], _ :: _ => false
  | c :: cs, p :: ps => c == p && startsWithStr cs ps

/-- Rust struct `TextChunk` (`src/memory.rs:351-355`): a chunk of text with 1-based
inclusive line information. -/
structure TextChunk where
  text : List Char
  start_line : Nat
  end_line : Nat
deriving DecidableEq, Repr

/-- The chunker's loop state: chunks emitted so far, the accumulating chunk
(`current_chunk`), its starting line index (`chunk_start`, 0-based), and the
code-fence flag (`in_code_block`). -/
structure ChunkSt where
  chunks : List TextChunk
  cur : List Char
  chunk_start : Nat
  in_code : Bool
deriving DecidableEq, Repr

/-- First phase of the `for (i, line)` loop body of `chunk_text`
(`src/memory.rs:372-389`): toggle the fence flag on a line starting with
three backticks, then split before a heading line outside code blocks when
the accumulator (`current_chunk`) is non-empty. -/
def fenceHeaderStep (i : Nat) (line : List Char) (st : ChunkSt) : ChunkSt :=
  let in_code := if startsWithStr line "```".data then !st.in_code else st.in_code
  let is_header := !in_code && startsWithStr line "#".data
  if is_header && !st.cur.isEmpty then
    { chunks := st.chunks ++ [⟨trimStr st.cur, st.chunk_start + 1, i⟩],
      cur := [], chunk_start := i, in_code := in_code }
  else
    { st with in_code := in_code }

/-- Second phase (`src/memory.rs:391-394`): append the line to the
accumulator, preceded by a newline when the accumulator is non-empty. -/
def appendCurStep (line : List Char) (st : ChunkSt) : ChunkSt :=
  { st with cur := if st.cur.isEmpty then line else st.cur ++ '\n' :: line }

/-- Third phase (`src/memory.rs:396-405`): split when the accumulator
exceeds 2000 bytes and the cursor is not inside a code block. -/
def sizeStep (i : Nat) (st : ChunkSt) : ChunkSt :=
  if utf8Len st.cur > 2000 && !st.in_code then
    { chunks := st.chunks ++ [⟨trimStr st.cur, st.chunk_start + 1, i + 1⟩],
      cur := [], chunk_start := i + 1, in_code := st.in_code }
  else st

/-- One iteration of the `for (i, line)` loop of `chunk_text`
(`src/memory.rs:371-406`): the three phases in the source's order. -/
def chunkStep (i : Nat) (line : List Char) (st : ChunkSt) : ChunkSt :=
  sizeStep i (appendCurStep line (fenceHeaderStep i line st))

/-- The chunker's loop over the lines, carrying the 0-based line index. -/
def chunkLoop : Nat → ChunkSt → List (List Char) → ChunkSt
  | _, st, [] => st
  | i, st, l :: ls => chunkLoop (i + 1) (chunkStep i l st) ls

/-- Rust `chunk_text` (`src/memory.rs:359-418`): split a document into chunks at
headings and at the 2000-byte threshold, never inside a fenced code block;
the final accumulated chunk is emitted when its trimmed text is non-empty. -/
def chunk_text (content : List Char) : List TextChunk :=
  let lines := rustLines content
  if lines.isEmpty then []
  else
    let st := chunkLoop 0 ⟨[], [], 0, false⟩ lines
    if (trimStr st.cur).isEmpty then st.chunks
    else st.chunks ++ [⟨trimStr st.cur, st.chunk_start + 1, lines.length⟩]

/-- Join a list of lines with `'\n'` separators. -/
def joinNl : List (List Char) → List Char
  | [] => []
  | [l] => l
  | l :: ls => l ++ '\n' :: joinNl ls

/-- The non-blank content lines of a string: its lines, each trimmed, with
blank lines dropped. -/
def nbl (s : List Char) : List (List Char) :=
  ((rustLines s).map trimStr).filter (fun l => !l.isEmpty)

/-- Variant: `nbl` computed over the raw `splitNl` pieces instead of `rustLines`. -/
def nblPieces (s : List Char) : List (List Char) :=
  ((splitNl s).map trimStr).filter (fun l => !l.isEmpty)

/-- The `nbl` contribution of a single (newline-free) line. -/
def lineNbl (l : List Char) : List (List Char) :=
  if (trimStr l).isEmpty then [] else [trimStr l]

/-- The total non-blank-line contribution of a chunker state: contributions of
the emitted chunks plus that of the accumulating chunk. -/
def stNbl (st : ChunkSt) : List (List Char) :=
  ((st.chunks.map TextChunk.text).map nblPieces).flatten ++ nblPieces st.cur

/-- Well-formedness of the emitted chunk list relative to the accumulator's
0-based starting line `cs`: `start_line ≤ end_line` throughout, ranges
strictly ordered, and the last chunk ends exactly where the accumulator
begins. -/
def ChunksOk (chunks : List TextChunk) (cs : Nat) : Prop :=
  (∀ ch ∈ chunks, ch.start_line ≤ ch.end_line) ∧
  chunks.Chain' (fun a b => a.end_line < b.start_line) ∧
  (∀ ch ∈ chunks.getLast?, ch.end_line = cs)

/-- Loop invariant of the chunker at line index `i`. -/
def ChunkInv (i : Nat) (st : ChunkSt) : Prop :=
  st.chunk_start ≤ i ∧ (¬st.cur = [] → st.chunk_start < i) ∧
  ChunksOk st.chunks st.chunk_start

/-- Truncation to a 64-bit machine word. -/
def w64 (n : Nat) : Nat := n % 2 ^ 64

/-- 64-bit wrapping addition. -/
def wadd (a b : Nat) : Nat := w64 (a + b)

/-- 64-bit left rotation. -/
def wrotl (x n : Nat) : Nat := w64 ((x <<< n) ||| (x >>> (64 - n)))

/-- One SipHash round. -/
def sipround : Nat × Nat × Nat × Nat → Nat × Nat × Nat × Nat
  | (v0, v1, v2, v3) =>
    let v0 := wadd v0 v1
    let v1 := wrotl v1 13
    let v1 := v1 ^^^ v0
    let v0 := wrotl v0 32
    let v2 := wadd v2 v3
    let v3 := wrotl v3 16
    let v3 := v3 ^^^ v2
    let v0 := wadd v0 v3
    let v3 := wrotl v3 21
    let v3 := v3 ^^^ v0
    let v2 := wadd v2 v1
    let v1 := wrotl v1 17
    let v1 := v1 ^^^ v2
    let v2 := wrotl v2 32
    (v0, v1, v2, v3)

/-- Compression of one 8-byte little-endian message word
(SipHash-1-3: one compression round). -/
def sipCompress (v : Nat × Nat × Nat × Nat) (m : Nat) : Nat × Nat × Nat × Nat :=
  let v := (v.1, v.2.1, v.2.2.1, v.2.2.2 ^^^ m)
  let v := sipround v
  (v.1 ^^^ m, v.2.1, v.2.2.1, v.2.2.2)

/-- Little-endian word from a (short) list of byte values. -/
def leBytes : List Nat → Nat
  | [] => 0
  | b :: bs => b + 256 * leBytes bs

/-- Finalization (SipHash-1-3: three finalization rounds). -/
def sipFinish (v : Nat × Nat × Nat × Nat) : Nat :=
  let v := (v.1, v.2.1, v.2.2.1 ^^^ 0xff, v.2.2.2)
  let v := sipround (sipround (sipround v))
  w64 (v.1 ^^^ v.2.1 ^^^ v.2.2.1 ^^^ v.2.2.2)

/-- Main hash loop: consume full 8-byte blocks, then the final padded block
whose top byte carries the total length modulo 256. -/
def sipBlocks (len : Nat) : Nat × Nat × Nat × Nat → List Nat → Nat
  | v, b0 :: b1 :: b2 :: b3 :: b4 :: b5 :: b6 :: b7 :: rest =>
    sipBlocks len (sipCompress v (leBytes [b0, b1, b2, b3, b4, b5, b6, b7])) rest
  | v, rest => sipFinish (sipCompress v (leBytes rest + (len % 256) * 2 ^ 56))

/-- SipHash-1-3 with both keys zero, as used by Rust's `DefaultHasher`. -/
def sipHash13 (bytes : List Nat) : Nat :=
  sipBlocks bytes.length
    (0x736f6d6570736575, 0x646f72616e646f6d, 0x6c7967656e657261, 0x7465646279746573)
    bytes

/-- UTF-8 encoding of one character, as byte values. -/
def utf8Enc (c : Char) : List Nat :=
  let n := c.toNat
  if n < 0x80 then [n]
  else if n < 0x800 then [0xC0 ||| (n >>> 6), 0x80 ||| (n &&& 0x3F)]
  else if n < 0x10000 then
    [0xE0 ||| (n >>> 12), 0x80 ||| ((n >>> 6) &&& 0x3F), 0x80 ||| (n &&& 0x3F)]
  else
    [0xF0 ||| (n >>> 18), 0x80 ||| ((n >>> 12) &&& 0x3F),
     0x80 ||| ((n >>> 6) &&& 0x3F), 0x80 ||| (n &&& 0x3F)]

/-- The UTF-8 bytes of a string. -/
def utf8Bytes (s : List Char) : List Nat := s.flatMap utf8Enc

/-- Rust `md5_hash` (`src/memory.rs:421-428`): hash the content's UTF-8 bytes
followed by the single `0xff` byte that `Hash for str` appends; `finish() as
u128` widens the 64-bit result without changing its value. -/
def md5_hash (content : List Char) : Nat :=
  sipHash13 (utf8Bytes content ++ [0xff])

/-- Rust `format!("{:x}", h)` (`src/memory.rs:187`): lower-case hexadecimal. -/
def hashHex (n : Nat) : String := ⟨Nat.toDigits 16 n⟩

/-- A row of `memory_files`. -/
structure FileRow where
  id : Nat
  channel : String
  user_id : String
  path : String
  hash : String
  updated_at : Nat
deriving DecidableEq, Repr

/-- A row of `memory_chunks`. -/
structure ChunkRow where
  id : Nat
  file_id : Nat
  chunk_index : Nat
  content : List Char
  start_line : Nat
  end_line : Nat
deriving DecidableEq, Repr

/-- A row of the `memory_vectors` virtual table; embeddings are modelled as
rational vectors. -/
structure VectorRow where
  chunk_id : Nat
  embedding : List ℚ
deriving DecidableEq, Repr

/-- The SQLite database state. `nextId` models SQLite rowid allocation for
the two rowid tables (`memory_files`, `memory_chunks`): every stored id is
below it, and inserts allocate fresh ids from it (`last_insert_rowid`). -/
structure Db where
  files : List FileRow
  chunks : List ChunkRow
  vectors : List VectorRow
  nextId : Nat
deriving DecidableEq, Repr

/-- The `WHERE channel = ? AND user_id = ? AND path = ?` predicate. -/
def fileKeyMatch (channel user_id path : String) (f : FileRow) : Bool :=
  f.channel == channel && f.user_id == user_id && f.path == path

/-- The hash lookup (`src/memory.rs:190-197`): first row for the key, if any. -/
def storedHash (db : Db) (channel user_id path : String) : Option String :=
  (db.files.find? (fileKeyMatch channel user_id path)).map FileRow.hash

/-- The three scoped `DELETE`s (`src/memory.rs:206-231`): vectors of the
file's chunks, the file's chunks, then the file row itself. -/
def deleteFileRows (db : Db) (channel user_id path : String) : Db :=
  let victimFiles := (db.files.filter (fileKeyMatch channel user_id path)).map FileRow.id
  let victimChunks :=
    (db.chunks.filter (fun c => victimFiles.contains c.file_id)).map ChunkRow.id
  { db with
    vectors := db.vectors.filter (fun v => !victimChunks.contains v.chunk_id),
    chunks := db.chunks.filter (fun c => !victimFiles.contains c.file_id),
    files := db.files.filter (fun f => !fileKeyMatch channel user_id path f) }

/-- A directory entry passed to the indexer: the file's relative path and its
content, `none` when `read_to_string` failed (`src/memory.rs:178-184`). -/
structure FsEntry where
  path : String
  content : Option (List Char)
deriving DecidableEq, Repr

/-- The embedding batch call: may fail, as the Rust call may
(`src/memory.rs:255-259`). -/
abbrev EmbedFn := List (List Char) → Except String (List (List ℚ))

/-- An embedding function that always succeeds, embedding each text with `f`. -/
def okEmbed (f : List Char → List ℚ) : EmbedFn :=
  fun ts => Except.ok (ts.map f)

/-- The indexer's running state: the database, the log of embedding batch
calls made so far, and the error that aborted the pass, if any. -/
structure IndexSt where
  db : Db
  calls : List (List (List Char))
  err : Option String
deriving DecidableEq, Repr

/-- One iteration of the `for entry in entries` loop of `index_user_memories`
(`src/memory.rs:169-280`): skip on read failure (`continue`); skip when the
stored hash equals the current content's hash; otherwise delete the file's
rows, insert the new file row, chunk, embed (`?` aborts the whole pass on
error, after the deletes and the file-row insert), and insert chunk and
vector rows with sequentially allocated ids. -/
def indexStep (embed : EmbedFn) (channel user_id : String) (now : Nat)
    (st : IndexSt) (e : FsEntry) : IndexSt :=
  if st.err.isSome then st
  else
    match e.content with
    | none => st
    | some content =>
      let hash := hashHex (md5_hash content)
      if storedHash st.db channel user_id e.path = some hash then st
      else
        let db1 := deleteFileRows st.db channel user_id e.path
        let fid := db1.nextId
        let db2 : Db :=
          { db1 with
            files := db1.files ++ [⟨fid, channel, user_id, e.path, hash, now⟩],
            nextId := fid + 1 }
        let cs := chunk_text content
        let texts := cs.map TextChunk.text
        match embed texts with
        | Except.error msg => ⟨db2, st.calls ++ [texts], some msg⟩
        | Except.ok embs =>
          let paired := (cs.zip embs).enum
          let newChunks := paired.map (fun ie =>
            ChunkRow.mk (fid + 1 + ie.1) fid ie.1 ie.2.1.text ie.2.1.start_line
              ie.2.1.end_line)
          let newVecs := paired.map (fun ie => VectorRow.mk (fid + 1 + ie.1) ie.2.2)
          ⟨{ db2 with
              chunks := db2.chunks ++ newChunks,
              vectors := db2.vectors ++ newVecs,
              nextId := fid + 1 + paired.length },
            st.calls ++ [texts], none⟩

/-- Rust `index_user_memories` (`src/memory.rs:155-283`): fold the per-file step
over the directory listing. The directory scan and `.md` filter are performed
by the caller-side filesystem; an absent directory corresponds to an empty
listing. -/
def index_user_memories (embed : EmbedFn) (channel user_id : String) (now : Nat)
    (db : Db) (entries : List FsEntry) : IndexSt :=
  entries.foldl (indexStep embed channel user_id now) ⟨db, [], none⟩

/-- The chunk rows belonging to the file `(channel, user_id, path)`. -/
def fileChunks (db : Db) (channel user_id path : String) : List ChunkRow :=
  db.chunks.filter (fun c =>
    (db.files.filter (fileKeyMatch channel user_id path)).any
      (fun f => f.id == c.file_id))

/-- Well-formedness of the database: row ids are unique, and all ids and
foreign keys are below the allocation counter. -/
def Db.Wf (db : Db) : Prop :=
  (db.files.map FileRow.id).Nodup ∧ (db.chunks.map ChunkRow.id).Nodup ∧
  (∀ f ∈ db.files, f.id < db.nextId) ∧
  (∀ c ∈ db.chunks, c.id < db.nextId ∧ c.file_id < db.nextId)

/-- The `memory_files` rows belonging to a tenant. -/
def tenantFiles (db : Db) (channel user_id : String) : List FileRow :=
  db.files.filter (fun f => f.channel == channel && f.user_id == user_id)

/-- The `memory_chunks` rows belonging to a tenant (via their owning file). -/
def tenantChunks (db : Db) (channel user_id : String) : List ChunkRow :=
  db.chunks.filter (fun c =>
    (tenantFiles db channel user_id).any (fun f => f.id == c.file_id))

/-- The `memory_vectors` rows belonging to a tenant (via their owning chunk). -/
def tenantVectors (db : Db) (channel user_id : String) : List VectorRow :=
  db.vectors.filter (fun v =>
    (tenantChunks db channel user_id).any (fun c => c.id == v.chunk_id))

/-- Rust struct `MemorySearchResult` (`src/memory.rs:81-85`). -/
structure MemorySearchResult where
  path : String
  chunk : List Char
  score : ℚ
deriving DecidableEq, Repr

/-- The `ORDER BY distance ASC` comparison on scored rows
`(path, chunk_text, distance)`. -/
def rowLe (a b : String × List Char × ℚ) : Prop := a.2.2 ≤ b.2.2

instance : DecidableRel rowLe :=
  fun a b => inferInstanceAs (Decidable (a.2.2 ≤ b.2.2))

instance : IsTotal (String × List Char × ℚ) rowLe :=
  ⟨fun a b => le_total a.2.2 b.2.2⟩

instance : IsTrans (String × List Char × ℚ) rowLe :=
  ⟨fun _ _ _ h1 h2 => le_trans h1 h2⟩

/-- The three-way join of the search query (`src/memory.rs:302-315`):
`memory_vectors JOIN memory_chunks ON chunk_id = id JOIN memory_files ON
file_id = id`. -/
def searchRows (db : Db) : List (FileRow × ChunkRow × VectorRow) :=
  db.vectors.flatMap (fun v =>
    (db.chunks.filter (fun c => c.id == v.chunk_id)).flatMap (fun c =>
      (db.files.filter (fun f => f.id == c.file_id)).map (fun f => (f, c, v))))

/-- Rust `MemoryIndex::search` (`src/memory.rs:286-332`): filter the join to the
tenant's rows, compute `vec_distance_cosine(stored, query)` (modelled by the
abstract distance parameter `dist`, and the embedded query by `queryEmb`),
order by distance ascending, truncate to `limit`, and report each row with
`score = 1 - distance`. -/
def searchScored (dist : List ℚ → List ℚ → ℚ) (db : Db)
    (channel user_id : String) (queryEmb : List ℚ) :
    List (String × List Char × ℚ) :=
  ((searchRows db).filter (fun r =>
    r.1.channel == channel && r.1.user_id == user_id)).map (fun r =>
      (r.1.path, r.2.1.content, dist r.2.2.embedding queryEmb))

def search (dist : List ℚ → List ℚ → ℚ) (db : Db) (channel user_id : String)
    (queryEmb : List ℚ) (limit : Nat) : List MemorySearchResult :=
  ((List.insertionSort rowLe (searchScored dist db channel user_id queryEmb)).take
    limit).map (fun r => ⟨r.1, r.2.1, 1 - r.2.2⟩)

/-- The repository's own unit test `test_chunk_text` (`src/memory.rs:439-459`),
checked against the model. -/
theorem chunk_text_matches_repo_test :
    chunk_text ("# Title\n\nSome intro text.\n\n## Section 1\n\nContent for section 1.\n\n## Section 2\n\nContent for section 2.\n".data)
      = [⟨"# Title\n\nSome intro text.".data, 1, 4⟩,
         ⟨"## Section 1\n\nContent for section 1.".data, 5, 8⟩,
         ⟨"## Section 2\n\nContent for section 2.".data, 9, 11⟩] := by decide

theorem splitNl_ne_nil (s : List Char) : splitNl s ≠ [] := by
  match s with
  | [] => simp [splitNl]
  | c :: cs =>
    rw [splitNl]
    split
    · simp
    · match h : splitNl cs with
      | [] => simp
      | l :: ls => simp

theorem splitNl_append (a b : List Char) :
    splitNl (a ++ b) =
      (splitNl a).dropLast ++
        (((splitNl a).getLast?.getD []) ++ ((splitNl b).headI)) :: (splitNl b).tail := by
  induction a with
  | nil =>
    match h : splitNl b with
    | [] => exact absurd h (splitNl_ne_nil b)
    | q :: qs => simp [splitNl, h, List.headI]
  | cons c cs ih =>
    by_cases hc : c = '\n'
    · subst hc
      rw [List.cons_append, splitNl, if_pos rfl, splitNl, if_pos rfl, ih]
      match h : splitNl cs with
      | [] => exact absurd h (splitNl_ne_nil cs)
      | p :: ps => simp
    · rw [List.cons_append, splitNl, if_neg hc, splitNl, if_neg hc, ih]
      match h : splitNl cs with
      | [] => exact absurd h (splitNl_ne_nil cs)
      | [p] =>
        match hb : splitNl b with
        | [] => exact absurd hb (splitNl_ne_nil b)
        | q :: qs => simp
      | p :: p' :: ps => simp

theorem dropLast_append_getLastD (ps : List (List Char)) (h : ps ≠ []) :
    ps.dropLast ++ [ps.getLast?.getD []] = ps := by
  match ps, h with
  | r :: rs, _ =>
    rw [List.getLast?_eq_getLast _ (by simp), Option.getD_some,
      List.dropLast_append_getLast]

theorem splitNl_snoc_newline (a : List Char) :
    splitNl (a ++ ['\n']) = (splitNl a).dropLast ++ [(splitNl a).getLast?.getD [], []] := by
  rw [splitNl_append]
  have hs : splitNl ['\n'] = [[], []] := rfl
  rw [hs]
  simp [List.headI]

theorem splitNl_append_newline (a b : List Char) :
    splitNl (a ++ '\n' :: b) = splitNl a ++ splitNl b := by
  have h2 : a ++ '\n' :: b = (a ++ ['\n']) ++ b := by simp
  rw [h2, splitNl_append, splitNl_snoc_newline]
  match hb : splitNl b with
  | [] => exact absurd hb (splitNl_ne_nil b)
  | q :: qs =>
    have hd : ((splitNl a).dropLast ++ [(splitNl a).getLast?.getD [], []]).dropLast
        = (splitNl a).dropLast ++ [(splitNl a).getLast?.getD []] := by
      have : ((splitNl a).dropLast ++ [(splitNl a).getLast?.getD [], []])
          = ((splitNl a).dropLast ++ [(splitNl a).getLast?.getD []]) ++ [[]] := by simp
      rw [this, List.dropLast_concat]
    have hg : ((splitNl a).dropLast ++ [(splitNl a).getLast?.getD [], []]).getLast?.getD []
        = ([] : List Char) := by
      rw [List.getLast?_append_of_ne_nil _ (by simp)]
      rfl
    rw [hd, hg, dropLast_append_getLastD _ (splitNl_ne_nil a)]
    simp [List.headI]

theorem splitNl_append_single {c : Char} (hc : ¬c = '\n') (s : List Char) :
    splitNl (s ++ [c]) = (splitNl s).dropLast ++ [((splitNl s).getLast?.getD []) ++ [c]] := by
  rw [splitNl_append]
  have hs : splitNl [c] = [[c]] := by
    rw [splitNl, if_neg hc]; rfl
  rw [hs]
  rfl

theorem trimStr_cons_ws {c : Char} (hc : isWs c = true) (l : List Char) :
    trimStr (c :: l) = trimStr l := by
  unfold trimStr trimLeftStr
  rw [List.dropWhile_cons_of_pos hc]

theorem trimRight_snoc_ws {c : Char} (hc : isWs c = true) (l : List Char) :
    trimRightStr (l ++ [c]) = trimRightStr l := by
  unfold trimRightStr
  rw [List.reverse_concat, List.dropWhile_cons_of_pos hc]

theorem trimStr_snoc_ws {c : Char} (hc : isWs c = true) (l : List Char) :
    trimStr (l ++ [c]) = trimStr l := by
  unfold trimStr trimLeftStr
  rw [List.dropWhile_append]
  split
  · rename_i h
    rw [List.isEmpty_iff] at h
    rw [h, List.dropWhile_cons_of_pos hc, List.dropWhile_nil]
  · exact trimRight_snoc_ws hc _

theorem nblPieces_nil : nblPieces [] = [] := rfl

theorem nblPieces_cons_ws {c : Char} (hc : isWs c = true) (s : List Char) :
    nblPieces (c :: s) = nblPieces s := by
  by_cases h : c = '\n'
  · subst h
    unfold nblPieces
    rw [splitNl, if_pos rfl]
    simp [trimStr, trimLeftStr, trimRightStr]
  · unfold nblPieces
    rw [splitNl, if_neg h]
    match hs : splitNl s with
    | [] => exact absurd hs (splitNl_ne_nil s)
    | l :: ls =>
      simp only [List.map_cons, List.filter_cons, trimStr_cons_ws hc]

theorem nblPieces_append_nl (a b : List Char) :
    nblPieces (a ++ '\n' :: b) = nblPieces a ++ nblPieces b := by
  unfold nblPieces
  rw [splitNl_append_newline, List.map_append, List.filter_append]

theorem nblPieces_snoc_ws {c : Char} (hc : isWs c = true) (s : List Char) :
    nblPieces (s ++ [c]) = nblPieces s := by
  by_cases h : c = '\n'
  · subst h
    have : (['\n'] : List Char) = '\n' :: [] := rfl
    rw [show s ++ ['\n'] = s ++ '\n' :: [] from rfl, nblPieces_append_nl, nblPieces_nil,
      List.append_nil]
  · unfold nblPieces
    rw [splitNl_append_single h]
    rw [List.map_append, List.filter_append]
    conv_rhs => rw [← dropLast_append_getLastD _ (splitNl_ne_nil s)]
    rw [List.map_append, List.filter_append]
    simp only [List.map_cons, List.map_nil, trimStr_snoc_ws hc]

theorem nblPieces_ws_suffix : ∀ (suf t : List Char), (∀ c ∈ suf, isWs c = true) →
    nblPieces (t ++ suf) = nblPieces t := by
  intro suf
  induction suf with
  | nil => intro t _; rw [List.append_nil]
  | cons c suf ih =>
    intro t hws
    have h1 : t ++ c :: suf = (t ++ [c]) ++ suf := by simp
    rw [h1, ih _ (fun x hx => hws x (List.mem_cons_of_mem _ hx)),
      nblPieces_snoc_ws (hws c (List.mem_cons_self _ _))]

theorem nblPieces_trimLeft (s : List Char) : nblPieces (trimLeftStr s) = nblPieces s := by
  unfold trimLeftStr
  induction s with
  | nil => rfl
  | cons c cs ih =>
    by_cases hc : isWs c = true
    · rw [List.dropWhile_cons_of_pos hc, ih, nblPieces_cons_ws hc]
    · rw [List.dropWhile_cons_of_neg hc]

theorem nblPieces_trimRight (s : List Char) : nblPieces (trimRightStr s) = nblPieces s := by
  have hdecomp : s = trimRightStr s ++ (s.reverse.takeWhile isWs).reverse := by
    unfold trimRightStr
    have h := List.takeWhile_append_dropWhile isWs s.reverse
    calc s = s.reverse.reverse := (List.reverse_reverse s).symm
      _ = (s.reverse.takeWhile isWs ++ s.reverse.dropWhile isWs).reverse := by rw [h]
      _ = (s.reverse.dropWhile isWs).reverse ++ (s.reverse.takeWhile isWs).reverse := by
          rw [List.reverse_append]
  conv_rhs => rw [hdecomp]
  rw [nblPieces_ws_suffix]
  intro c hcmem
  exact List.mem_takeWhile_imp (List.mem_reverse.mp hcmem)

theorem nblPieces_trim (s : List Char) : nblPieces (trimStr s) = nblPieces s := by
  unfold trimStr
  rw [nblPieces_trimRight, nblPieces_trimLeft]

theorem trimStr_stripCr (l : List Char) : trimStr (stripCr l) = trimStr l := by
  unfold stripCr
  split
  · rename_i h
    have hne : l ≠ [] := by
      intro hnil; subst hnil; simp at h
    have hlast : l.getLast hne = '\r' := by
      rw [List.getLast?_eq_getLast _ hne] at h
      exact Option.some.inj h
    conv_rhs => rw [← List.dropLast_append_getLast hne, hlast]
    rw [trimStr_snoc_ws (by decide)]
  · rfl

theorem nbl_eq_nblPieces (s : List Char) : nbl s = nblPieces s := by
  unfold nbl rustLines
  simp only []
  rw [List.map_map]
  have hmap : ∀ ps : List (List Char),
      ps.map (trimStr ∘ stripCr) = ps.map trimStr := by
    intro ps
    apply List.map_congr_left
    intro l _
    exact trimStr_stripCr l
  split
  · rename_i h
    rw [hmap]
    unfold nblPieces
    conv_rhs => rw [← dropLast_append_getLastD _ (splitNl_ne_nil s)]
    rw [h, Option.getD_some, List.map_append, List.filter_append]
    simp
    rfl
  · rw [hmap]; rfl

theorem splitNl_no_newline : ∀ (s : List Char), ∀ p ∈ splitNl s, '\n' ∉ p := by
  intro s
  induction s with
  | nil =>
    intro p hp
    rw [splitNl] at hp
    simp at hp
    subst hp
    simp
  | cons c cs ih =>
    intro p hp
    rw [splitNl] at hp
    by_cases hc : c = '\n'
    · rw [if_pos hc] at hp
      rcases List.mem_cons.mp hp with h | h
      · subst h; simp
      · exact ih p h
    · rw [if_neg hc] at hp
      match hs : splitNl cs with
      | [] => exact absurd hs (splitNl_ne_nil cs)
      | l :: ls =>
        rw [hs] at hp
        rcases List.mem_cons.mp hp with h | h
        · subst h
          intro hmem
          rcases List.mem_cons.mp hmem with h' | h'
          · exact hc h'.symm
          · exact ih l (hs ▸ List.mem_cons_self _ _) h'
        · exact ih p (hs ▸ List.mem_cons_of_mem _ h)

theorem rustLines_no_newline (s : List Char) : ∀ l ∈ rustLines s, '\n' ∉ l := by
  intro l hl
  unfold rustLines at hl
  simp only [] at hl
  have hsub : ∀ (ps : List (List Char)), l ∈ ps.map stripCr →
      (∀ p ∈ ps, '\n' ∉ p) → '\n' ∉ l := by
    intro ps hmem hps
    rcases List.mem_map.mp hmem with ⟨p, hp, hlp⟩
    subst hlp
    intro hnl
    unfold stripCr at hnl
    split at hnl
    · exact hps p hp ((List.dropLast_sublist p).mem hnl)
    · exact hps p hp hnl
  split at hl
  · exact hsub _ hl (fun p hp => splitNl_no_newline s p ((List.dropLast_sublist _).mem hp))
  · exact hsub _ hl (splitNl_no_newline s)

theorem splitNl_of_no_newline {l : List Char} (h : '\n' ∉ l) : splitNl l = [l] := by
  induction l with
  | nil => rfl
  | cons c cs ih =>
    rw [splitNl, if_neg (fun hc : c = '\n' => h (hc ▸ List.mem_cons_self c cs)),
      ih (fun hmem => h (List.mem_cons_of_mem _ hmem))]

theorem nblPieces_single {l : List Char} (h : '\n' ∉ l) : nblPieces l = lineNbl l := by
  unfold nblPieces lineNbl
  rw [splitNl_of_no_newline h]
  by_cases hemp : (trimStr l).isEmpty = true <;>
    simp [List.filter, hemp]

theorem nblPieces_joinNl : ∀ (ts : List (List Char)),
    nblPieces (joinNl ts) = (ts.map nblPieces).flatten := by
  intro ts
  match ts with
  | [] => rfl
  | [l] => simp [joinNl]
  | l :: l' :: ls =>
    have hj : joinNl (l :: l' :: ls) = l ++ '\n' :: joinNl (l' :: ls) := rfl
    rw [hj, nblPieces_append_nl, nblPieces_joinNl (l' :: ls)]
    simp

theorem stNbl_fenceHeaderStep (i : Nat) (line : List Char) (st : ChunkSt) :
    stNbl (fenceHeaderStep i line st) = stNbl st := by
  unfold fenceHeaderStep stNbl
  dsimp only
  split <;> split <;> simp [nblPieces_trim, nblPieces_nil]

theorem stNbl_appendCurStep (line : List Char) (st : ChunkSt)
    (hline : '\n' ∉ line) :
    stNbl (appendCurStep line st) = stNbl st ++ lineNbl line := by
  unfold appendCurStep stNbl
  dsimp only
  split
  · rename_i h
    rw [List.isEmpty_iff.mp h]
    simp [nblPieces_nil, nblPieces_single hline]
  · rw [nblPieces_append_nl, nblPieces_single hline]
    simp

theorem stNbl_sizeStep (i : Nat) (st : ChunkSt) :
    stNbl (sizeStep i st) = stNbl st := by
  unfold sizeStep stNbl
  split <;> simp [nblPieces_trim, nblPieces_nil]

theorem chunkStep_stNbl (i : Nat) (line : List Char) (st : ChunkSt)
    (hline : '\n' ∉ line) :
    stNbl (chunkStep i line st) = stNbl st ++ lineNbl line := by
  unfold chunkStep
  rw [stNbl_sizeStep, stNbl_appendCurStep line _ hline, stNbl_fenceHeaderStep]

theorem chunkLoop_stNbl : ∀ (ls : List (List Char)) (i : Nat) (st : ChunkSt),
    (∀ l ∈ ls, '\n' ∉ l) →
    stNbl (chunkLoop i st ls) = stNbl st ++ (ls.map lineNbl).flatten := by
  intro ls
  induction ls with
  | nil => intro i st _; simp [chunkLoop]
  | cons l ls ih =>
    intro i st hnl
    rw [chunkLoop, ih _ _ (fun x hx => hnl x (List.mem_cons_of_mem _ hx)),
      chunkStep_stNbl i l st (hnl l (List.mem_cons_self _ _))]
    simp

theorem filter_map_eq_flatten_lineNbl : ∀ (ls : List (List Char)),
    (ls.map trimStr).filter (fun l => !l.isEmpty) = (ls.map lineNbl).flatten := by
  intro ls
  induction ls with
  | nil => rfl
  | cons l ls ih =>
    simp only [List.map_cons, List.filter_cons, List.flatten_cons, lineNbl]
    by_cases hemp : (trimStr l).isEmpty = true <;> simp [hemp, ih]

theorem ChunksOk_push {chunks : List TextChunk} {cs : Nat} (h : ChunksOk chunks cs)
    {t : List Char} {e : Nat} (he : cs < e) :
    ChunksOk (chunks ++ [⟨t, cs + 1, e⟩]) e := by
  obtain ⟨hr, hc, hl⟩ := h
  refine ⟨?_, ?_, ?_⟩
  · intro ch hch
    rcases List.mem_append.mp hch with h1 | h1
    · exact hr ch h1
    · rw [List.mem_singleton] at h1
      subst h1
      exact he
  · rw [List.chain'_append]
    refine ⟨hc, List.chain'_singleton _, ?_⟩
    intro x hx y hy
    simp only [List.head?_cons, Option.mem_def, Option.some.injEq] at hy
    subst hy
    have := hl x hx
    show x.end_line < cs + 1
    omega
  · rw [List.getLast?_concat]
    intro ch hch
    simp only [Option.mem_def, Option.some.injEq] at hch
    subst hch
    rfl

theorem fenceHeaderStep_inv (i : Nat) (line : List Char) (st : ChunkSt)
    (h : ChunkInv i st) : ChunkInv i (fenceHeaderStep i line st) := by
  obtain ⟨h1, h2, h3⟩ := h
  unfold fenceHeaderStep
  dsimp only
  split <;> split <;>
    first
      | exact ⟨h1, h2, h3⟩
      | (rename_i hcond
         have hcur : ¬st.cur = [] := by
           intro hnil
           rw [hnil] at hcond
           simp at hcond
         exact ⟨le_refl i, fun hcon => (hcon rfl).elim, ChunksOk_push h3 (h2 hcur)⟩)

theorem appendCurStep_inv (i : Nat) (line : List Char) (st : ChunkSt)
    (h : ChunkInv i st) : ChunkInv (i + 1) (appendCurStep line st) := by
  obtain ⟨h1, _, h3⟩ := h
  exact ⟨Nat.le_succ_of_le h1, fun _ => Nat.lt_succ_of_le h1, h3⟩

theorem sizeStep_inv (i : Nat) (st : ChunkSt) (h1 : st.chunk_start ≤ i)
    (h3 : ChunksOk st.chunks st.chunk_start) : ChunkInv (i + 1) (sizeStep i st) := by
  unfold sizeStep
  split
  · exact ⟨le_refl _, fun hcon => (hcon rfl).elim, ChunksOk_push h3 (Nat.lt_succ_of_le h1)⟩
  · exact ⟨Nat.le_succ_of_le h1, fun _ => Nat.lt_succ_of_le h1, h3⟩

theorem chunkStep_inv (i : Nat) (line : List Char) (st : ChunkSt)
    (h : ChunkInv i st) : ChunkInv (i + 1) (chunkStep i line st) := by
  unfold chunkStep
  have hf := fenceHeaderStep_inv i line st h
  exact sizeStep_inv i _ hf.1 hf.2.2

theorem chunkLoop_inv : ∀ (ls : List (List Char)) (i : Nat) (st : ChunkSt),
    ChunkInv i st → ChunkInv (i + ls.length) (chunkLoop i st ls) := by
  intro ls
  induction ls with
  | nil => intro i st h; simpa [chunkLoop] using h
  | cons l ls ih =>
    intro i st h
    rw [chunkLoop]
    have hrec := ih (i + 1) _ (chunkStep_inv i l st h)
    have heq : i + (l :: ls).length = (i + 1) + ls.length := by
      rw [List.length_cons]; omega
    rw [heq]
    exact hrec

/-- C6: For every document, `chunk_text` returns chunks in document order
whose texts, joined in order, carry exactly the non-blank content lines of
the input (compared as trimmed lines, since chunk texts are stored trimmed);
every chunk satisfies `start_line ≤ end_line`, and chunk line ranges are
non-overlapping and strictly increasing across consecutive chunks. -/
theorem chunk_text_coverage_and_ranges (content : List Char) :
    nbl (joinNl ((chunk_text content).map TextChunk.text)) = nbl content
    ∧ (∀ ch ∈ chunk_text content, ch.start_line ≤ ch.end_line)
    ∧ (chunk_text content).Chain' (fun a b => a.end_line < b.start_line) := by
  have hinit : ChunkInv 0 ⟨[], [], 0, false⟩ :=
    ⟨le_refl 0, fun hcon => (hcon rfl).elim,
      fun ch hch => absurd hch (List.not_mem_nil ch), List.chain'_nil,
      fun ch hch => by simp at hch⟩
  unfold chunk_text
  dsimp only
  by_cases hL : (rustLines content).isEmpty = true
  · rw [if_pos hL]
    refine ⟨?_, fun ch hch => absurd hch (List.not_mem_nil ch), List.chain'_nil⟩
    unfold nbl
    rw [List.isEmpty_iff.mp hL]
    rfl
  · rw [if_neg hL]
    have hloop := chunkLoop_stNbl (rustLines content) 0 ⟨[], [], 0, false⟩
      (rustLines_no_newline content)
    have hinv := chunkLoop_inv (rustLines content) 0 ⟨[], [], 0, false⟩ hinit
    rw [Nat.zero_add] at hinv
    obtain ⟨hcs, hcur, hok⟩ := hinv
    have hcontent : nbl content = ((rustLines content).map lineNbl).flatten := by
      unfold nbl
      exact filter_map_eq_flatten_lineNbl _
    have hstnbl : stNbl (chunkLoop 0 ⟨[], [], 0, false⟩ (rustLines content))
        = ((rustLines content).map lineNbl).flatten := by
      rw [hloop]
      rfl
    split
    · rename_i hemp
      refine ⟨?_, hok.1, hok.2.1⟩
      rw [nbl_eq_nblPieces, nblPieces_joinNl, hcontent, ← hstnbl]
      unfold stNbl
      have hnil : nblPieces (chunkLoop 0 ⟨[], [], 0, false⟩ (rustLines content)).cur = [] := by
        rw [← nblPieces_trim, List.isEmpty_iff.mp hemp]
        rfl
      rw [hnil, List.append_nil]
    · rename_i hemp
      have hcur' : ¬(chunkLoop 0 ⟨[], [], 0, false⟩ (rustLines content)).cur = [] := by
        intro hnil
        apply hemp
        rw [hnil]
        rfl
      have hpush := ChunksOk_push hok (hcur hcur')
        (t := trimStr (chunkLoop 0 ⟨[], [], 0, false⟩ (rustLines content)).cur)
      refine ⟨?_, hpush.1, hpush.2.1⟩
      rw [nbl_eq_nblPieces, nblPieces_joinNl, hcontent, ← hstnbl]
      unfold stNbl
      simp [nblPieces_trim]

/-- C7: while the line cursor is inside a fenced code block — i.e. the fence
flag, after processing the current line's fence marker, is set — neither a
heading line nor the accumulated chunk exceeding the 2000-byte threshold
opens a chunk boundary: the loop iteration emits no chunk. -/
theorem chunkStep_in_code_no_split (i : Nat) (line : List Char) (st : ChunkSt)
    (h : (if startsWithStr line "```".data then !st.in_code else st.in_code) = true) :
    (chunkStep i line st).chunks = st.chunks := by
  unfold chunkStep fenceHeaderStep appendCurStep sizeStep
  dsimp only
  rw [h]
  simp

/-- Witness for C7: a line inside an open code fence, with an accumulator
far beyond the size threshold, still opens no boundary. -/
theorem chunkStep_in_code_no_split_witness :
    (chunkStep 5 "0123456789".data ⟨[], List.replicate 2500 'a', 0, true⟩).chunks = [] :=
  chunkStep_in_code_no_split 5 "0123456789".data ⟨[], List.replicate 2500 'a', 0, true⟩
    (by decide)

theorem startsWith_ws_ne (l : List Char) (hws : ∀ c ∈ l, isWs c = true)
    (p : Char) (ps : List Char) (hp : isWs p = false) :
    startsWithStr l (p :: ps) = false := by
  match l with
  | [] => rfl
  | c :: cs =>
    have hc := hws c (List.mem_cons_self _ _)
    have hne : (c == p) = false := by
      rw [beq_eq_false_iff_ne]
      intro hcp
      subst hcp
      rw [hc] at hp
      exact absurd hp (by decide)
    rw [startsWithStr]
    simp [hne]

theorem utf8Len_append (a b : List Char) : utf8Len (a ++ b) = utf8Len a + utf8Len b := by
  unfold utf8Len
  rw [List.map_append, List.sum_append]

theorem trimStr_of_ws {l : List Char} (hws : ∀ c ∈ l, isWs c = true) :
    trimStr l = [] := by
  unfold trimStr trimLeftStr
  have hdrop : l.dropWhile isWs = [] := List.dropWhile_eq_nil_iff.mpr hws
  rw [hdrop]
  rfl

theorem sum_splitNl (s : List Char) :
    ((splitNl s).map (fun l => utf8Len l + 1)).sum = utf8Len s + 1 := by
  induction s with
  | nil => rfl
  | cons c cs ih =>
    rw [splitNl]
    by_cases hc : c = '\n'
    · rw [if_pos hc, List.map_cons, List.sum_cons, ih]
      subst hc
      show 0 + 1 + (utf8Len cs + 1) = utf8Len ('\n' :: cs) + 1
      have : utf8Len ('\n' :: cs) = 1 + utf8Len cs := by
        unfold utf8Len
        rw [List.map_cons, List.sum_cons]
        have hsz : '\n'.utf8Size = 1 := by decide
        rw [hsz]
      omega
    · rw [if_neg hc]
      match h : splitNl cs with
      | [] => exact absurd h (splitNl_ne_nil cs)
      | l :: ls =>
        rw [h] at ih
        rw [List.map_cons, List.sum_cons] at ih ⊢
        have h1 : utf8Len (c :: l) = c.utf8Size + utf8Len l := by
          unfold utf8Len
          rw [List.map_cons, List.sum_cons]
        have h2 : utf8Len (c :: cs) = c.utf8Size + utf8Len cs := by
          unfold utf8Len
          rw [List.map_cons, List.sum_cons]
        omega

theorem utf8Len_dropLast_le (l : List Char) : utf8Len l.dropLast ≤ utf8Len l := by
  match l with
  | [] => exact le_refl _
  | c :: cs =>
    conv_rhs => rw [← List.dropLast_append_getLast (l := c :: cs) (by simp)]
    rw [utf8Len_append]
    omega

theorem utf8Len_stripCr_le (l : List Char) : utf8Len (stripCr l) ≤ utf8Len l := by
  unfold stripCr
  split
  · exact utf8Len_dropLast_le l
  · exact le_refl _

theorem sum_rustLines_le (s : List Char) :
    ((rustLines s).map (fun l => utf8Len l + 1)).sum ≤ utf8Len s + 1 := by
  unfold rustLines
  simp only []
  have hpoint : ∀ (qs : List (List Char)),
      ((qs.map stripCr).map (fun l => utf8Len l + 1)).sum ≤
        (qs.map (fun l => utf8Len l + 1)).sum := by
    intro qs
    rw [List.map_map]
    apply List.sum_le_sum
    intro l _
    have := utf8Len_stripCr_le l
    simp only [Function.comp]
    omega
  have hdrop : ∀ (qs : List (List Char)),
      (qs.dropLast.map (fun l => utf8Len l + 1)).sum ≤
        (qs.map (fun l => utf8Len l + 1)).sum := by
    intro qs
    match qs with
    | [] => exact le_refl _
    | q :: qs' =>
      conv_rhs => rw [← List.dropLast_append_getLast (l := q :: qs') (by simp)]
      rw [List.map_append, List.sum_append]
      omega
  split
  · calc (((splitNl s).dropLast.map stripCr).map (fun l => utf8Len l + 1)).sum
        ≤ ((splitNl s).dropLast.map (fun l => utf8Len l + 1)).sum := hpoint _
      _ ≤ ((splitNl s).map (fun l => utf8Len l + 1)).sum := hdrop _
      _ = utf8Len s + 1 := sum_splitNl s
  · calc (((splitNl s).map stripCr).map (fun l => utf8Len l + 1)).sum
        ≤ ((splitNl s).map (fun l => utf8Len l + 1)).sum := hpoint _
      _ = utf8Len s + 1 := sum_splitNl s

theorem mem_splitNl_chars : ∀ (s : List Char), ∀ p ∈ splitNl s, ∀ c ∈ p, c ∈ s := by
  intro s
  induction s with
  | nil =>
    intro p hp c hc
    rw [splitNl] at hp
    simp at hp
    subst hp
    simp at hc
  | cons a as ih =>
    intro p hp c hc
    rw [splitNl] at hp
    by_cases ha : a = '\n'
    · rw [if_pos ha] at hp
      rcases List.mem_cons.mp hp with h | h
      · subst h; simp at hc
      · exact List.mem_cons_of_mem _ (ih p h c hc)
    · rw [if_neg ha] at hp
      match hs : splitNl as with
      | [] => exact absurd hs (splitNl_ne_nil as)
      | l :: ls =>
        rw [hs] at hp
        rcases List.mem_cons.mp hp with h | h
        · subst h
          rcases List.mem_cons.mp hc with h' | h'
          · subst h'; exact List.mem_cons_self _ _
          · exact List.mem_cons_of_mem _ (ih l (hs ▸ List.mem_cons_self _ _) c h')
        · exact List.mem_cons_of_mem _ (ih p (hs ▸ List.mem_cons_of_mem _ h) c hc)

theorem rustLines_chars (s : List Char) : ∀ l ∈ rustLines s, ∀ c ∈ l, c ∈ s := by
  intro l hl c hc
  unfold rustLines at hl
  simp only [] at hl
  have hstep : ∀ (qs : List (List Char)), l ∈ qs.map stripCr →
      (∀ p ∈ qs, ∀ c ∈ p, c ∈ s) → c ∈ s := by
    intro qs hmem hqs
    rcases List.mem_map.mp hmem with ⟨p, hp, hlp⟩
    subst hlp
    apply hqs p hp
    unfold stripCr at hc
    split at hc
    · exact (List.dropLast_sublist p).mem hc
    · exact hc
  split at hl
  · exact hstep _ hl
      (fun p hp => mem_splitNl_chars s p ((List.dropLast_sublist _).mem hp))
  · exact hstep _ hl (mem_splitNl_chars s)

theorem chunkLoop_ws : ∀ (ls : List (List Char)) (i : Nat) (st : ChunkSt),
    (∀ l ∈ ls, ∀ c ∈ l, isWs c = true) →
    (∀ c ∈ st.cur, isWs c = true) →
    utf8Len st.cur + (if st.cur.isEmpty then 0 else 1) +
      (ls.map (fun l => utf8Len l + 1)).sum ≤ 2001 →
    (chunkLoop i st ls).chunks = st.chunks ∧
    (∀ c ∈ (chunkLoop i st ls).cur, isWs c = true) := by
  intro ls
  induction ls with
  | nil => intro i st _ hcur _; exact ⟨rfl, hcur⟩
  | cons l ls ih =>
    intro i st hws hcur hbound
    rw [chunkLoop]
    have hlws : ∀ c ∈ l, isWs c = true := hws l (List.mem_cons_self _ _)
    have hfence : startsWithStr l "```".data = false :=
      startsWith_ws_ne l hlws fenceHead "``".data (by decide)
    have hhash : startsWithStr l "#".data = false :=
      startsWith_ws_ne l hlws '#' _ (by decide)
    have hfh : fenceHeaderStep i l st = st := by
      unfold fenceHeaderStep
      dsimp only
      rw [hfence, hhash]
      simp
    have happ : (appendCurStep l st).cur
        = if st.cur.isEmpty then l else st.cur ++ '\n' :: l := rfl
    have hcur' : ∀ c ∈ (appendCurStep l st).cur, isWs c = true := by
      rw [happ]
      split
      · exact hlws
      · intro c hc
        rcases List.mem_append.mp hc with h | h
        · exact hcur c h
        · rcases List.mem_cons.mp h with h' | h'
          · subst h'; decide
          · exact hlws c h'
    have hlen : utf8Len (appendCurStep l st).cur ≤
        utf8Len st.cur + (if st.cur.isEmpty then 0 else 1) + utf8Len l := by
      rw [happ]
      split
      · omega
      · rw [utf8Len_append]
        have h10 : utf8Len ('\n' :: l) = 1 + utf8Len l := by
          unfold utf8Len
          rw [List.map_cons, List.sum_cons]
          have hsz : '\n'.utf8Size = 1 := by decide
          rw [hsz]
        omega
    have hsumc : ((l :: ls).map (fun x => utf8Len x + 1)).sum
        = (utf8Len l + 1) + (ls.map (fun x => utf8Len x + 1)).sum := by
      rw [List.map_cons, List.sum_cons]
    have hsmall : ¬(utf8Len (appendCurStep l st).cur > 2000) := by
      rw [hsumc] at hbound
      omega
    have hstep : chunkStep i l st = appendCurStep l st := by
      unfold chunkStep
      rw [hfh]
      unfold sizeStep
      simp [hsmall]
    rw [hstep]
    refine ih (i + 1) _ (fun l' h => hws l' (List.mem_cons_of_mem _ h)) hcur' ?_
    have hind : (if (appendCurStep l st).cur.isEmpty then 0 else 1) ≤ 1 := by
      split <;> omega
    rw [hsumc] at hbound
    omega

/-- C8 counterexample: a run of whitespace before a heading is flushed as a
chunk whose trimmed text is the empty string, refuting "every chunk produced
by `chunk_text` is non-empty after trimming". -/
theorem chunk_text_blank_chunk_cex :
    (chunk_text ("   \n# Heading".data)).map TextChunk.text
      = [[], "# Heading".data] := by decide

/-- C8 (amended): the empty document and every whitespace-only document of
at most 2000 bytes yield zero chunks; chunks emitted at header or size
boundaries can have empty trimmed text when the accumulated run was
whitespace-only. -/
theorem chunk_text_ws_only (content : List Char)
    (hws : ∀ c ∈ content, isWs c = true) (hlen : utf8Len content ≤ 2000) :
    chunk_text content = [] := by
  unfold chunk_text
  dsimp only
  by_cases hL : (rustLines content).isEmpty = true
  · rw [if_pos hL]
  · rw [if_neg hL]
    have hlines : ∀ l ∈ rustLines content, ∀ c ∈ l, isWs c = true :=
      fun l hl c hc => hws c (rustLines_chars content l hl c hc)
    have hbound : utf8Len ([] : List Char) + (if ([] : List Char).isEmpty then 0 else 1) +
        ((rustLines content).map (fun l => utf8Len l + 1)).sum ≤ 2001 := by
      have hs := sum_rustLines_le content
      have hz : utf8Len ([] : List Char) + (if ([] : List Char).isEmpty then 0 else 1) = 0 := rfl
      omega
    obtain ⟨hchunks, hcur⟩ := chunkLoop_ws (rustLines content) 0 ⟨[], [], 0, false⟩
      hlines (by intro c hc; simp at hc) hbound
    have htrim : trimStr (chunkLoop 0 ⟨[], [], 0, false⟩ (rustLines content)).cur = [] :=
      trimStr_of_ws hcur
    rw [htrim]
    simp only [List.isEmpty_nil, if_pos rfl]
    exact hchunks

/-- Witness for the amended C8 at a concrete whitespace-only document. -/
theorem chunk_text_ws_only_witness : chunk_text ("  \n \n".data) = [] :=
  chunk_text_ws_only ("  \n \n".data) (by decide) (by decide)

/-- C9 counterexample: the example document
`"# Title\n\nIntro.\n\n## A\n\nContent A.\n\n## B\n\nContent B."` has 11
source lines, not 9, and the three chunk ranges partition lines 1-11; so the
ranges cannot partition "the document's 9 source lines". -/
theorem chunk_text_example_cex :
    (rustLines ("# Title\n\nIntro.\n\n## A\n\nContent A.\n\n## B\n\nContent B.".data)).length = 11
    ∧ (rustLines ("# Title\n\nIntro.\n\n## A\n\nContent A.\n\n## B\n\nContent B.".data)).length ≠ 9
    ∧ ((chunk_text ("# Title\n\nIntro.\n\n## A\n\nContent A.\n\n## B\n\nContent B.".data)).map
        (fun ch => (ch.start_line, ch.end_line))) = [(1, 4), (5, 8), (9, 11)] := by
  decide

/-- C9 (amended): the example document chunks into exactly 3 chunks whose
texts contain "Title", "A" and "B" respectively (the full texts are shown),
and whose ranges partition the document's 11 source lines without gaps. -/
theorem chunk_text_example :
    chunk_text ("# Title\n\nIntro.\n\n## A\n\nContent A.\n\n## B\n\nContent B.".data)
      = [⟨"# Title\n\nIntro.".data, 1, 4⟩,
         ⟨"## A\n\nContent A.".data, 5, 8⟩,
         ⟨"## B\n\nContent B.".data, 9, 11⟩] := by decide

theorem sipFinish_lt (v : Nat × Nat × Nat × Nat) : sipFinish v < 2 ^ 64 := by
  unfold sipFinish w64
  exact Nat.mod_lt _ (by norm_num)

theorem sipBlocks_lt (len : Nat) : ∀ (n : Nat) (v : Nat × Nat × Nat × Nat)
    (bs : List Nat), bs.length = n → sipBlocks len v bs < 2 ^ 64 := by
  intro n
  induction n using Nat.strong_induction_on with
  | _ n ih =>
    intro v bs hlen
    match bs with
    | b0 :: b1 :: b2 :: b3 :: b4 :: b5 :: b6 :: b7 :: rest =>
      have hlt : rest.length < n := by
        subst hlen
        simp
        omega
      exact ih rest.length hlt _ rest rfl
    | [] => exact sipFinish_lt _
    | [b0] => exact sipFinish_lt _
    | [b0, b1] => exact sipFinish_lt _
    | [b0, b1, b2] => exact sipFinish_lt _
    | [b0, b1, b2, b3] => exact sipFinish_lt _
    | [b0, b1, b2, b3, b4] => exact sipFinish_lt _
    | [b0, b1, b2, b3, b4, b5] => exact sipFinish_lt _
    | [b0, b1, b2, b3, b4, b5, b6] => exact sipFinish_lt _

theorem md5_hash_lt (content : List Char) : md5_hash content < 2 ^ 64 :=
  sipBlocks_lt _ _ _ _ rfl

theorem indexStep_none (embed : EmbedFn) (ch u : String) (now : Nat)
    (st : IndexSt) (e : FsEntry) (h : e.content = none) :
    indexStep embed ch u now st e = st := by
  unfold indexStep
  split
  · rfl
  · rw [h]

theorem indexStep_skip (embed : EmbedFn) (ch u : String) (now : Nat)
    (st : IndexSt) (e : FsEntry) (c : List Char) (hc : e.content = some c)
    (hh : storedHash st.db ch u e.path = some (hashHex (md5_hash c))) :
    indexStep embed ch u now st e = st := by
  unfold indexStep
  split
  · rfl
  · rw [hc]
    dsimp only
    rw [if_pos hh]

theorem indexStep_err_ok (f : List Char → List ℚ) (ch u : String) (now : Nat)
    (st : IndexSt) (e : FsEntry) :
    (indexStep (okEmbed f) ch u now st e).err = st.err := by
  unfold indexStep
  split
  · rfl
  · rename_i hsome
    have hnone : st.err = none := Option.not_isSome_iff_eq_none.mp hsome
    cases hc : e.content with
    | none => rfl
    | some c =>
      dsimp only
      split
      · rfl
      · dsimp only [okEmbed]
        rw [hnone]

theorem find?_filter_of_imp {α : Type} {q r : α → Bool}
    (h : ∀ x, q x = true → r x = true) :
    ∀ (l : List α), (l.filter r).find? q = l.find? q := by
  intro l
  induction l with
  | nil => rfl
  | cons a l ih =>
    by_cases hq : q a = true
    · have hr := h a hq
      rw [List.filter_cons_of_pos hr, List.find?_cons_of_pos _ hq,
        List.find?_cons_of_pos _ hq]
    · by_cases hr : r a = true
      · rw [List.filter_cons_of_pos hr, List.find?_cons_of_neg _ hq,
          List.find?_cons_of_neg _ hq, ih]
      · rw [List.filter_cons_of_neg hr, List.find?_cons_of_neg _ hq, ih]

theorem find?_filter_not_self {α : Type} (q : α → Bool) (l : List α) :
    (l.filter (fun x => !q x)).find? q = none := by
  rw [List.find?_eq_none]
  intro x hx
  have hmem := (List.mem_filter.mp hx).2
  simp only [Bool.not_eq_true']  at hmem
  simp [hmem]

theorem find?_delete_insert_other (ch u p p' : String) (l : List FileRow)
    (hp : p ≠ p') (nr : FileRow) (hnr : nr.path = p') :
    ((l.filter (fun f => !fileKeyMatch ch u p' f)) ++ [nr]).find? (fileKeyMatch ch u p)
      = l.find? (fileKeyMatch ch u p) := by
  rw [List.find?_append]
  rw [find?_filter_of_imp (q := fileKeyMatch ch u p)
    (r := fun f => !fileKeyMatch ch u p' f) ?_ l]
  · have hkey : fileKeyMatch ch u p nr = false := by
      unfold fileKeyMatch
      rw [hnr]
      have : (p' == p) = false := beq_eq_false_iff_ne.mpr (Ne.symm hp)
      rw [this, Bool.and_false]
    rw [List.find?_cons_of_neg _ (by simp [hkey]), List.find?_nil]
    cases l.find? (fileKeyMatch ch u p) <;> rfl
  · intro x hx
    unfold fileKeyMatch at hx ⊢
    simp only [Bool.and_eq_true, beq_iff_eq] at hx
    obtain ⟨⟨h1, h2⟩, h3⟩ := hx
    have hb : (x.path == p') = false := beq_eq_false_iff_ne.mpr (h3 ▸ hp)
    simp [hb]

theorem find?_delete_insert_self (ch u p : String) (l : List FileRow)
    (nr : FileRow) (hnr : fileKeyMatch ch u p nr = true) :
    ((l.filter (fun f => !fileKeyMatch ch u p f)) ++ [nr]).find? (fileKeyMatch ch u p)
      = some nr := by
  rw [List.find?_append, find?_filter_not_self, List.find?_cons_of_pos _ hnr]
  rfl

theorem indexStep_err_some (embed : EmbedFn) (ch u : String) (now : Nat)
    (st : IndexSt) (e : FsEntry) (h : st.err ≠ none) :
    indexStep embed ch u now st e = st := by
  unfold indexStep
  rw [if_pos (Option.isSome_iff_ne_none.mpr h)]

/-- The `memory_files` rows after a re-index step: the file's old rows are
deleted and the fresh row appended; this holds whether or not the embedding
call fails, since the deletes and the file-row insert precede it. -/
theorem indexStep_files (embed : EmbedFn) (ch u : String) (now : Nat)
    (st : IndexSt) (e : FsEntry) (c : List Char) (herr : st.err = none)
    (hc : e.content = some c)
    (hmiss : storedHash st.db ch u e.path ≠ some (hashHex (md5_hash c))) :
    (indexStep embed ch u now st e).db.files
      = st.db.files.filter (fun f => !fileKeyMatch ch u e.path f)
        ++ [FileRow.mk st.db.nextId ch u e.path (hashHex (md5_hash c)) now] := by
  unfold indexStep
  rw [herr]
  dsimp only [Option.isSome_none]
  rw [if_neg (by simp)]
  rw [hc]
  dsimp only
  rw [if_neg hmiss]
  cases hembed : embed ((chunk_text c).map TextChunk.text) with
  | error msg => rfl
  | ok embs => rfl

theorem indexStep_storedHash_other (embed : EmbedFn) (ch u : String) (now : Nat)
    (st : IndexSt) (e : FsEntry) (p : String) (hp : p ≠ e.path) :
    storedHash (indexStep embed ch u now st e).db ch u p
      = storedHash st.db ch u p := by
  by_cases herr : st.err = none
  · cases hc : e.content with
    | none => rw [indexStep_none embed ch u now st e hc]
    | some c =>
      by_cases hh : storedHash st.db ch u e.path = some (hashHex (md5_hash c))
      · rw [indexStep_skip embed ch u now st e c hc hh]
      · unfold storedHash
        rw [indexStep_files embed ch u now st e c herr hc hh]
        rw [find?_delete_insert_other ch u p e.path _ hp _ rfl]
  · rw [indexStep_err_some embed ch u now st e herr]

theorem indexStep_storedHash_self (embed : EmbedFn) (ch u : String) (now : Nat)
    (st : IndexSt) (e : FsEntry) (c : List Char) (herr : st.err = none)
    (hc : e.content = some c) :
    storedHash (indexStep embed ch u now st e).db ch u e.path
      = some (hashHex (md5_hash c)) := by
  by_cases hh : storedHash st.db ch u e.path = some (hashHex (md5_hash c))
  · rw [indexStep_skip embed ch u now st e c hc hh]
    exact hh
  · unfold storedHash
    rw [indexStep_files embed ch u now st e c herr hc hh]
    rw [find?_delete_insert_self ch u e.path _ _ (by unfold fileKeyMatch; simp)]
    rfl

theorem fold_storedHash_frame (embed : EmbedFn) (ch u : String) (now : Nat) :
    ∀ (entries : List FsEntry) (st : IndexSt) (p : String),
      (∀ e ∈ entries, p ≠ e.path) →
      storedHash (entries.foldl (indexStep embed ch u now) st).db ch u p
        = storedHash st.db ch u p := by
  intro entries
  induction entries with
  | nil => intro st p _; rfl
  | cons e rest ih =>
    intro st p hp
    rw [List.foldl_cons, ih _ p (fun e' h => hp e' (List.mem_cons_of_mem _ h))]
    exact indexStep_storedHash_other embed ch u now st e p
      (hp e (List.mem_cons_self _ _))

theorem fold_err_ok (f : List Char → List ℚ) (ch u : String) (now : Nat) :
    ∀ (entries : List FsEntry) (st : IndexSt),
      (entries.foldl (indexStep (okEmbed f) ch u now) st).err = st.err := by
  intro entries
  induction entries with
  | nil => intro st; rfl
  | cons e rest ih =>
    intro st
    rw [List.foldl_cons, ih, indexStep_err_ok]

theorem fold_storedHash_covered (f : List Char → List ℚ) (ch u : String) (now : Nat) :
    ∀ (entries : List FsEntry) (st : IndexSt),
      st.err = none → (entries.map FsEntry.path).Nodup →
      ∀ e ∈ entries, ∀ c, e.content = some c →
      storedHash (entries.foldl (indexStep (okEmbed f) ch u now) st).db ch u e.path
        = some (hashHex (md5_hash c)) := by
  intro entries
  induction entries with
  | nil => intro st _ _ e he; exact absurd he (List.not_mem_nil e)
  | cons e0 rest ih =>
    intro st herr hnodup e he c hc
    rw [List.map_cons] at hnodup
    rw [List.foldl_cons]
    rcases List.mem_cons.mp he with rfl | hmem
    · have hsets := indexStep_storedHash_self (okEmbed f) ch u now st e c herr hc
      have hfr : ∀ e' ∈ rest, e.path ≠ e'.path := by
        intro e' h' heq
        exact (List.nodup_cons.mp hnodup).1
          (heq ▸ List.mem_map_of_mem FsEntry.path h')
      rw [fold_storedHash_frame (okEmbed f) ch u now rest _ e.path hfr]
      exact hsets
    · exact ih _ (by rw [indexStep_err_ok]; exact herr)
        (List.nodup_cons.mp hnodup).2 e hmem c hc

theorem fold_skip (embed : EmbedFn) (ch u : String) (now : Nat) :
    ∀ (entries : List FsEntry) (st : IndexSt),
      st.err = none →
      (∀ e ∈ entries, ∀ c, e.content = some c →
        storedHash st.db ch u e.path = some (hashHex (md5_hash c))) →
      entries.foldl (indexStep embed ch u now) st = st := by
  intro entries
  induction entries with
  | nil => intro st _ _; rfl
  | cons e rest ih =>
    intro st herr hcov
    rw [List.foldl_cons]
    have hstep : indexStep embed ch u now st e = st := by
      cases hc : e.content with
      | none => exact indexStep_none embed ch u now st e hc
      | some c =>
        exact indexStep_skip embed ch u now st e c hc
          (hcov e (List.mem_cons_self _ _) c hc)
    rw [hstep]
    exact ih st herr (fun e' h' => hcov e' (List.mem_cons_of_mem _ h'))

/-- C1: a file whose current content hash equals the stored hash for
`(channel, user_id, path)` is skipped — its step leaves the database, the
embedding-call log and the error state untouched — and hence re-indexing the
same unchanged listing leaves every stored row unchanged and makes no
embedding call at all during the second pass. -/
theorem index_unchanged_skip_and_idempotent (f : List Char → List ℚ)
    (ch u : String) (now1 now2 : Nat) (db : Db) (entries : List FsEntry)
    (hpaths : (entries.map FsEntry.path).Nodup) :
    (∀ (st : IndexSt) (e : FsEntry) (c : List Char), e.content = some c →
        storedHash st.db ch u e.path = some (hashHex (md5_hash c)) →
        indexStep (okEmbed f) ch u now2 st e = st)
    ∧ index_user_memories (okEmbed f) ch u now2
        (index_user_memories (okEmbed f) ch u now1 db entries).db entries
      = ⟨(index_user_memories (okEmbed f) ch u now1 db entries).db, [], none⟩ := by
  constructor
  · intro st e c hc hh
    exact indexStep_skip (okEmbed f) ch u now2 st e c hc hh
  · unfold index_user_memories
    apply fold_skip
    · rfl
    · intro e he c hc
      exact fold_storedHash_covered f ch u now1 entries ⟨db, [], none⟩ rfl hpaths
        e he c hc

/-- Witness for C1 at a concrete one-file listing. -/
theorem index_unchanged_witness :
    index_user_memories (okEmbed (fun _ => [(1 : ℚ)])) "telegram" "42" 1
        (index_user_memories (okEmbed (fun _ => [(1 : ℚ)])) "telegram" "42" 0
          ⟨[], [], [], 1⟩ [⟨"notes.md", some "# T\nhello".data⟩]).db
        [⟨"notes.md", some "# T\nhello".data⟩]
      = ⟨(index_user_memories (okEmbed (fun _ => [(1 : ℚ)])) "telegram" "42" 0
          ⟨[], [], [], 1⟩ [⟨"notes.md", some "# T\nhello".data⟩]).db, [], none⟩ :=
  (index_unchanged_skip_and_idempotent (fun _ => [(1 : ℚ)]) "telegram" "42" 0 1
    ⟨[], [], [], 1⟩ [⟨"notes.md", some "# T\nhello".data⟩] (by decide)).2

theorem enum_zip_text (cs : List TextChunk) (es : List (List ℚ))
    (hlen : cs.length ≤ es.length) :
    (cs.zip es).enum.map (fun ie => ie.2.1.text) = cs.map TextChunk.text := by
  have h1 : (cs.zip es).enum.map (fun ie => ie.2.1.text)
      = ((cs.zip es).enum.map Prod.snd).map (fun p => p.1.text) := by
    rw [List.map_map]
    apply List.map_congr_left
    intro p _
    rfl
  rw [h1, List.enum_map_snd]
  have h2 : (cs.zip es).map (fun p => p.1.text)
      = ((cs.zip es).map Prod.fst).map TextChunk.text := by
    rw [List.map_map]
    apply List.map_congr_left
    intro p _
    rfl
  rw [h2, List.map_fst_zip cs es hlen]

/-- The database produced by a re-index step under a successful embedding,
written out explicitly. -/
theorem indexStep_ok_db (f : List Char → List ℚ) (ch u : String) (now : Nat)
    (st : IndexSt) (e : FsEntry) (c : List Char) (herr : st.err = none)
    (hc : e.content = some c)
    (hmiss : storedHash st.db ch u e.path ≠ some (hashHex (md5_hash c))) :
    (indexStep (okEmbed f) ch u now st e).db =
      { files := st.db.files.filter (fun fr => !fileKeyMatch ch u e.path fr)
          ++ [FileRow.mk st.db.nextId ch u e.path (hashHex (md5_hash c)) now],
        chunks := (deleteFileRows st.db ch u e.path).chunks
          ++ ((chunk_text c).zip
                (((chunk_text c).map TextChunk.text).map f)).enum.map (fun ie =>
              ChunkRow.mk (st.db.nextId + 1 + ie.1) st.db.nextId ie.1
                ie.2.1.text ie.2.1.start_line ie.2.1.end_line),
        vectors := (deleteFileRows st.db ch u e.path).vectors
          ++ ((chunk_text c).zip
                (((chunk_text c).map TextChunk.text).map f)).enum.map (fun ie =>
              VectorRow.mk (st.db.nextId + 1 + ie.1) ie.2.2),
        nextId := st.db.nextId + 1 +
          ((chunk_text c).zip
            (((chunk_text c).map TextChunk.text).map f)).enum.length } := by
  unfold indexStep
  rw [herr]
  dsimp only [Option.isSome_none]
  rw [if_neg (by simp)]
  rw [hc]
  dsimp only
  rw [if_neg hmiss]
  dsimp only [okEmbed]
  rfl

/-- C2 (amended, operational part): when the stored hash differs from the
current content's hash (or is absent), the step fully re-chunks and
re-embeds: afterwards the chunk rows of that file are exactly those produced
by `chunk_text` on the new content, in order — no chunk of the old version
remains. -/
theorem index_reindex_replaces (f : List Char → List ℚ) (ch u : String)
    (now : Nat) (st : IndexSt) (e : FsEntry) (c : List Char)
    (hwf : st.db.Wf) (herr : st.err = none) (hc : e.content = some c)
    (hmiss : storedHash st.db ch u e.path ≠ some (hashHex (md5_hash c))) :
    ((fileChunks (indexStep (okEmbed f) ch u now st e).db ch u e.path).map
        ChunkRow.content)
      = (chunk_text c).map TextChunk.text
    ∧ (fileChunks (indexStep (okEmbed f) ch u now st e).db ch u e.path).length
      = (chunk_text c).length := by
  obtain ⟨hfnodup, hcnodup, hfbound, hcbound⟩ := hwf
  rw [fileChunks, indexStep_ok_db f ch u now st e c herr hc hmiss]
  dsimp only
  have hself : fileKeyMatch ch u e.path
      (FileRow.mk st.db.nextId ch u e.path (hashHex (md5_hash c)) now) = true := by
    unfold fileKeyMatch
    simp
  have hfiles : (st.db.files.filter (fun fr => !fileKeyMatch ch u e.path fr)
        ++ [FileRow.mk st.db.nextId ch u e.path (hashHex (md5_hash c)) now]).filter
        (fileKeyMatch ch u e.path)
      = [FileRow.mk st.db.nextId ch u e.path (hashHex (md5_hash c)) now] := by
    rw [List.filter_append]
    have h1 : (st.db.files.filter (fun fr => !fileKeyMatch ch u e.path fr)).filter
        (fileKeyMatch ch u e.path) = [] := by
      rw [List.filter_eq_nil_iff]
      intro a ha
      have := (List.mem_filter.mp ha).2
      simp only [Bool.not_eq_true'] at this
      simp [this]
    rw [h1, List.filter_cons_of_pos hself, List.filter_nil, List.nil_append]
  rw [hfiles]
  have hpred : ∀ (k : ChunkRow),
      [FileRow.mk st.db.nextId ch u e.path (hashHex (md5_hash c)) now].any
        (fun fr => fr.id == k.file_id) = (st.db.nextId == k.file_id) := by
    intro k
    rw [List.any_cons, List.any_nil, Bool.or_false]
  have hold : ((deleteFileRows st.db ch u e.path).chunks).filter
      (fun k => ([FileRow.mk st.db.nextId ch u e.path (hashHex (md5_hash c)) now] :
        List FileRow).any (fun fr => fr.id == k.file_id)) = [] := by
    rw [List.filter_eq_nil_iff]
    intro k hk
    rw [hpred k]
    have hmem : k ∈ st.db.chunks := by
      have : (deleteFileRows st.db ch u e.path).chunks.Sublist st.db.chunks :=
        List.filter_sublist _
      exact this.mem hk
    have := (hcbound k hmem).2
    simp only [beq_iff_eq]
    omega
  have hnew : (((chunk_text c).zip
        (((chunk_text c).map TextChunk.text).map f)).enum.map (fun ie =>
          ChunkRow.mk (st.db.nextId + 1 + ie.1) st.db.nextId ie.1
            ie.2.1.text ie.2.1.start_line ie.2.1.end_line)).filter
      (fun k => ([FileRow.mk st.db.nextId ch u e.path (hashHex (md5_hash c)) now] :
        List FileRow).any (fun fr => fr.id == k.file_id))
      = ((chunk_text c).zip
          (((chunk_text c).map TextChunk.text).map f)).enum.map (fun ie =>
            ChunkRow.mk (st.db.nextId + 1 + ie.1) st.db.nextId ie.1
              ie.2.1.text ie.2.1.start_line ie.2.1.end_line) := by
    apply List.filter_eq_self.mpr
    intro k hk
    rcases List.mem_map.mp hk with ⟨ie, _, hke⟩
    subst hke
    rw [hpred]
    simp
  rw [List.filter_append, hold, List.nil_append, hnew]
  have hzlen : ((chunk_text c).zip
      (((chunk_text c).map TextChunk.text).map f)).length = (chunk_text c).length := by
    rw [List.length_zip]
    simp
  constructor
  · rw [List.map_map]
    refine Eq.trans (List.map_congr_left ?_) (enum_zip_text (chunk_text c) _ ?_)
    · intro p _
      rfl
    · simp
  · rw [List.length_map, List.enum_length, hzlen]

/-- C2 counterexample: `md5_hash` maps the infinitely many possible contents
into the 64-bit range, so two distinct contents share a hash — "mutating a
file's content changes its computed hash" cannot hold universally. -/
theorem md5_hash_not_injective :
    ∃ a b : List Char, a ≠ b ∧ md5_hash a = md5_hash b := by
  obtain ⟨a, b, hne, heq⟩ :=
    Finite.exists_ne_map_eq_of_infinite
      (fun c : List Char => (⟨md5_hash c, md5_hash_lt c⟩ : Fin (2 ^ 64)))
  exact ⟨a, b, hne, by simpa using congrArg Fin.val heq⟩

/-- Witness for the amended C2 at a concrete entry over an empty store. -/
theorem index_reindex_replaces_witness :
    ((fileChunks (indexStep (okEmbed (fun _ => [(1 : ℚ)])) "telegram" "42" 7
        ⟨⟨[], [], [], 1⟩, [], none⟩ ⟨"a.md", some "hello\nworld".data⟩).db
        "telegram" "42" "a.md").map ChunkRow.content)
      = (chunk_text "hello\nworld".data).map TextChunk.text
    ∧ (fileChunks (indexStep (okEmbed (fun _ => [(1 : ℚ)])) "telegram" "42" 7
        ⟨⟨[], [], [], 1⟩, [], none⟩ ⟨"a.md", some "hello\nworld".data⟩).db
        "telegram" "42" "a.md").length
      = (chunk_text "hello\nworld".data).length :=
  index_reindex_replaces (fun _ => [(1 : ℚ)]) "telegram" "42" 7
    ⟨⟨[], [], [], 1⟩, [], none⟩ ⟨"a.md", some "hello\nworld".data⟩
    "hello\nworld".data
    ⟨by decide, by decide, by decide, by decide⟩ rfl rfl (by decide)

/-- C3 counterexample: when embedding fails for `a.md`, the whole pass aborts
with the error (`?` at `src/memory.rs:259`): the remaining file `b.md` is
never indexed, and partial state for `a.md` is committed — its file row, with
the new hash, exists with no chunk or vector rows, so a later pass would even
skip the file as "unchanged". -/
theorem index_embed_failure_cex :
    (index_user_memories (fun _ => Except.error "embed failed") "telegram" "42" 0
        ⟨[], [], [], 1⟩
        [⟨"a.md", some "hello".data⟩, ⟨"b.md", some "world".data⟩]).err
      = some "embed failed"
    ∧ ((index_user_memories (fun _ => Except.error "embed failed") "telegram" "42" 0
        ⟨[], [], [], 1⟩
        [⟨"a.md", some "hello".data⟩, ⟨"b.md", some "world".data⟩]).db.files.map
          FileRow.path) = ["a.md"]
    ∧ (index_user_memories (fun _ => Except.error "embed failed") "telegram" "42" 0
        ⟨[], [], [], 1⟩
        [⟨"a.md", some "hello".data⟩, ⟨"b.md", some "world".data⟩]).db.chunks = []
    ∧ (index_user_memories (fun _ => Except.error "embed failed") "telegram" "42" 0
        ⟨[], [], [], 1⟩
        [⟨"a.md", some "hello".data⟩, ⟨"b.md", some "world".data⟩]).db.vectors = []
    ∧ storedHash (index_user_memories (fun _ => Except.error "embed failed")
        "telegram" "42" 0 ⟨[], [], [], 1⟩
        [⟨"a.md", some "hello".data⟩, ⟨"b.md", some "world".data⟩]).db
        "telegram" "42" "a.md" = some (hashHex (md5_hash "hello".data)) := by
  decide

/-- C3 (amended, read-failure part): a file whose read failed is skipped with
no state change whatsoever, and indexing continues with the remaining files
exactly as if the unreadable file were not listed. -/
theorem index_read_failure_isolated (embed : EmbedFn) (ch u : String) (now : Nat)
    (db : Db) (p : String) (pre rest : List FsEntry) :
    index_user_memories embed ch u now db (pre ++ ⟨p, none⟩ :: rest)
      = index_user_memories embed ch u now db (pre ++ rest) := by
  unfold index_user_memories
  rw [List.foldl_append, List.foldl_append, List.foldl_cons,
    indexStep_none embed ch u now _ _ rfl]

/-- The database produced by a re-index step whose embedding call failed:
the deletes and the file-row insert have already happened. -/
theorem indexStep_error_db (embed : EmbedFn) (ch u : String) (now : Nat)
    (st : IndexSt) (e : FsEntry) (c : List Char) (msg : String)
    (herr : st.err = none) (hc : e.content = some c)
    (hmiss : storedHash st.db ch u e.path ≠ some (hashHex (md5_hash c)))
    (hembed : embed ((chunk_text c).map TextChunk.text) = Except.error msg) :
    (indexStep embed ch u now st e).db =
      { files := st.db.files.filter (fun fr => !fileKeyMatch ch u e.path fr)
          ++ [FileRow.mk st.db.nextId ch u e.path (hashHex (md5_hash c)) now],
        chunks := (deleteFileRows st.db ch u e.path).chunks,
        vectors := (deleteFileRows st.db ch u e.path).vectors,
        nextId := st.db.nextId + 1 } := by
  unfold indexStep
  rw [herr]
  dsimp only [Option.isSome_none]
  rw [if_neg (by simp)]
  rw [hc]
  dsimp only
  rw [if_neg hmiss, hembed]
  rfl

theorem wf_delete (db : Db) (ch u p : String) (h : db.Wf) :
    (deleteFileRows db ch u p).Wf := by
  obtain ⟨h1, h2, h3, h4⟩ := h
  refine ⟨?_, ?_, ?_, ?_⟩
  · exact List.Nodup.sublist ((List.filter_sublist _).map FileRow.id) h1
  · exact List.Nodup.sublist ((List.filter_sublist _).map ChunkRow.id) h2
  · intro f hf
    exact h3 f ((List.filter_sublist _).mem hf)
  · intro c hc
    exact h4 c ((List.filter_sublist _).mem hc)

theorem nodup_append_fresh {l : List Nat} (bound : Nat) (h : l.Nodup)
    (hb : ∀ x ∈ l, x < bound) (news : List Nat) (hnews : news.Nodup)
    (hge : ∀ x ∈ news, bound ≤ x) : (l ++ news).Nodup := by
  rw [List.nodup_append]
  refine ⟨h, hnews, ?_⟩
  intro x hx hx'
  have := hb x hx
  have := hge x hx'
  omega

theorem newChunkIds_nodup (fid : Nat) (paired : List (TextChunk × List ℚ)) :
    ((paired.enum.map (fun ie =>
      ChunkRow.mk (fid + 1 + ie.1) fid ie.1 ie.2.1.text ie.2.1.start_line
        ie.2.1.end_line)).map ChunkRow.id).Nodup := by
  rw [List.map_map]
  have heq : paired.enum.map (ChunkRow.id ∘ fun ie =>
      ChunkRow.mk (fid + 1 + ie.1) fid ie.1 ie.2.1.text ie.2.1.start_line
        ie.2.1.end_line)
      = (paired.enum.map Prod.fst).map (fun i => fid + 1 + i) := by
    rw [List.map_map]
    apply List.map_congr_left
    intro p _
    rfl
  rw [heq, List.enum_map_fst]
  exact (List.nodup_range _).map (fun a b hab => by omega)

/-- The database produced by a re-index step whose embedding call succeeded,
for an arbitrary embedding function. -/
theorem indexStep_okresult_db (embed : EmbedFn) (ch u : String) (now : Nat)
    (st : IndexSt) (e : FsEntry) (c : List Char) (embs : List (List ℚ))
    (herr : st.err = none) (hc : e.content = some c)
    (hmiss : storedHash st.db ch u e.path ≠ some (hashHex (md5_hash c)))
    (hembed : embed ((chunk_text c).map TextChunk.text) = Except.ok embs) :
    (indexStep embed ch u now st e).db =
      { files := st.db.files.filter (fun fr => !fileKeyMatch ch u e.path fr)
          ++ [FileRow.mk st.db.nextId ch u e.path (hashHex (md5_hash c)) now],
        chunks := (deleteFileRows st.db ch u e.path).chunks
          ++ ((chunk_text c).zip embs).enum.map (fun ie =>
              ChunkRow.mk (st.db.nextId + 1 + ie.1) st.db.nextId ie.1
                ie.2.1.text ie.2.1.start_line ie.2.1.end_line),
        vectors := (deleteFileRows st.db ch u e.path).vectors
          ++ ((chunk_text c).zip embs).enum.map (fun ie =>
              VectorRow.mk (st.db.nextId + 1 + ie.1) ie.2.2),
        nextId := st.db.nextId + 1 + ((chunk_text c).zip embs).enum.length } := by
  unfold indexStep
  rw [herr]
  dsimp only [Option.isSome_none]
  rw [if_neg (by simp)]
  rw [hc]
  dsimp only
  rw [if_neg hmiss, hembed]
  rfl

theorem files_after_insert_nodup (db : Db) (ch u p : String) (hwf : db.Wf)
    (nr : FileRow) (hid : nr.id = db.nextId) :
    ((db.files.filter (fun f => !fileKeyMatch ch u p f) ++ [nr]).map
      FileRow.id).Nodup := by
  rw [List.map_append]
  apply nodup_append_fresh db.nextId
  · exact List.Nodup.sublist ((List.filter_sublist _).map FileRow.id) hwf.1
  · intro x hx
    rcases List.mem_map.mp hx with ⟨f, hf, rfl⟩
    exact hwf.2.2.1 f ((List.filter_sublist _).mem hf)
  · simp
  · intro x hx
    simp only [List.map_cons, List.map_nil, List.mem_singleton] at hx
    subst hx
    rw [hid]

theorem indexStep_wf (embed : EmbedFn) (ch u : String) (now : Nat)
    (st : IndexSt) (e : FsEntry) (hwf : st.db.Wf) :
    (indexStep embed ch u now st e).db.Wf := by
  by_cases herr : st.err = none
  · cases hc : e.content with
    | none =>
      rw [indexStep_none embed ch u now st e hc]
      exact hwf
    | some c =>
      by_cases hh : storedHash st.db ch u e.path = some (hashHex (md5_hash c))
      · rw [indexStep_skip embed ch u now st e c hc hh]
        exact hwf
      · have hdel := wf_delete st.db ch u e.path hwf
        cases hembed : embed ((chunk_text c).map TextChunk.text) with
        | error msg =>
          rw [indexStep_error_db embed ch u now st e c msg herr hc hh hembed]
          refine ⟨files_after_insert_nodup st.db ch u e.path hwf _ rfl,
            hdel.2.1, ?_, ?_⟩
          · intro f hf
            show f.id < st.db.nextId + 1
            rcases List.mem_append.mp hf with h | h
            · have := hwf.2.2.1 f ((List.filter_sublist _).mem h)
              omega
            · rw [List.mem_singleton] at h
              subst h
              show st.db.nextId < st.db.nextId + 1
              omega
          · intro k hk
            show k.id < st.db.nextId + 1 ∧ k.file_id < st.db.nextId + 1
            have h1 := hdel.2.2.2 k hk
            have hdn : (deleteFileRows st.db ch u e.path).nextId = st.db.nextId := rfl
            rw [hdn] at h1
            omega
        | ok embs =>
          rw [indexStep_okresult_db embed ch u now st e c embs herr hc hh hembed]
          have hlen : ∀ ie ∈ ((chunk_text c).zip embs).enum,
              ie.1 < ((chunk_text c).zip embs).enum.length := by
            intro ie hie
            rw [List.enum_length]
            exact (List.mem_enum (x := ie.2) (i := ie.1) (by simpa using hie)).1
          refine ⟨files_after_insert_nodup st.db ch u e.path hwf _ rfl, ?_, ?_, ?_⟩
          · rw [List.map_append]
            apply nodup_append_fresh (st.db.nextId + 1)
            · exact List.Nodup.sublist ((List.filter_sublist _).map ChunkRow.id)
                hwf.2.1
            · intro x hx
              rcases List.mem_map.mp hx with ⟨k, hk, rfl⟩
              have := (hwf.2.2.2 k ((List.filter_sublist _).mem hk)).1
              omega
            · exact newChunkIds_nodup st.db.nextId _
            · intro x hx
              rcases List.mem_map.mp hx with ⟨k, hk, rfl⟩
              rcases List.mem_map.mp hk with ⟨ie, _, rfl⟩
              show st.db.nextId + 1 ≤ st.db.nextId + 1 + ie.1
              omega
          · intro f hf
            show f.id < st.db.nextId + 1 + ((chunk_text c).zip embs).enum.length
            rcases List.mem_append.mp hf with h | h
            · have := hwf.2.2.1 f ((List.filter_sublist _).mem h)
              omega
            · rw [List.mem_singleton] at h
              subst h
              show st.db.nextId < st.db.nextId + 1 + ((chunk_text c).zip embs).enum.length
              omega
          · intro k hk
            show k.id < st.db.nextId + 1 + ((chunk_text c).zip embs).enum.length
              ∧ k.file_id < st.db.nextId + 1 + ((chunk_text c).zip embs).enum.length
            rcases List.mem_append.mp hk with h | h
            · have h1 := hdel.2.2.2 k h
              have hdn : (deleteFileRows st.db ch u e.path).nextId = st.db.nextId := rfl
              rw [hdn] at h1
              omega
            · rcases List.mem_map.mp h with ⟨ie, hie, rfl⟩
              have := hlen ie hie
              constructor
              · show st.db.nextId + 1 + ie.1
                    < st.db.nextId + 1 + ((chunk_text c).zip embs).enum.length
                omega
              · show st.db.nextId
                    < st.db.nextId + 1 + ((chunk_text c).zip embs).enum.length
                omega
  · rw [indexStep_err_some embed ch u now st e herr]
    exact hwf

theorem tenant_frame_general (db : Db) (ch u p ch' u' : String)
    (hwf : db.Wf) (hne : ¬(ch' = ch ∧ u' = u)) (db' : Db) (nr : FileRow)
    (hnrc : nr.channel = ch) (hnru : nr.user_id = u)
    (NC : List ChunkRow) (hNC : ∀ k ∈ NC, k.file_id = db.nextId)
    (NV : List VectorRow) (hNV : ∀ v ∈ NV, db.nextId + 1 ≤ v.chunk_id)
    (hdf : db'.files = db.files.filter (fun f => !fileKeyMatch ch u p f) ++ [nr])
    (hdc : db'.chunks = (deleteFileRows db ch u p).chunks ++ NC)
    (hdv : db'.vectors = (deleteFileRows db ch u p).vectors ++ NV) :
    tenantFiles db' ch' u' = tenantFiles db ch' u'
    ∧ tenantChunks db' ch' u' = tenantChunks db ch' u'
    ∧ tenantVectors db' ch' u' = tenantVectors db ch' u' := by
  have hT'nr : (nr.channel == ch' && nr.user_id == u') = false := by
    rw [hnrc, hnru]
    by_cases h1 : ch = ch'
    · have h2 : ¬u = u' := fun h2 => hne ⟨h1.symm, h2.symm⟩
      rw [beq_eq_false_iff_ne.mpr h2, Bool.and_false]
    · rw [beq_eq_false_iff_ne.mpr h1, Bool.false_and]
  have hTK : ∀ f : FileRow, (f.channel == ch' && f.user_id == u') = true →
      fileKeyMatch ch u p f = false := by
    intro f hf
    simp only [Bool.and_eq_true, beq_iff_eq] at hf
    unfold fileKeyMatch
    by_cases h1 : f.channel = ch
    · by_cases h2 : f.user_id = u
      · exact absurd ⟨hf.1.symm.trans h1, hf.2.symm.trans h2⟩ hne
      · rw [beq_eq_false_iff_ne.mpr h2, Bool.and_false, Bool.false_and]
    · rw [beq_eq_false_iff_ne.mpr h1, Bool.false_and, Bool.false_and]
  have hfiles : tenantFiles db' ch' u' = tenantFiles db ch' u' := by
    unfold tenantFiles
    rw [hdf, List.filter_append]
    have h1 : List.filter (fun f => f.channel == ch' && f.user_id == u') [nr] = [] := by
      rw [List.filter_cons_of_neg (by simp [hT'nr]), List.filter_nil]
    rw [h1, List.append_nil, List.filter_filter]
    apply List.filter_congr
    intro f _
    by_cases hf : (f.channel == ch' && f.user_id == u') = true
    · rw [hf, hTK f hf]
      rfl
    · simp only [Bool.not_eq_true] at hf
      rw [hf]
      rfl
  have hchunks : tenantChunks db' ch' u' = tenantChunks db ch' u' := by
    unfold tenantChunks
    rw [hfiles, hdc, List.filter_append]
    have hNCnil : NC.filter (fun c =>
        (tenantFiles db ch' u').any (fun f => f.id == c.file_id)) = [] := by
      rw [List.filter_eq_nil_iff]
      intro k hk hpred
      rcases List.any_eq_true.mp hpred with ⟨f, hfmem, hfid⟩
      have hfdb : f ∈ db.files := (List.mem_filter.mp hfmem).1
      have := hwf.2.2.1 f hfdb
      rw [beq_iff_eq] at hfid
      rw [hNC k hk] at hfid
      omega
    have hold : ((deleteFileRows db ch u p).chunks).filter (fun c =>
          (tenantFiles db ch' u').any (fun f => f.id == c.file_id))
        = db.chunks.filter (fun c =>
          (tenantFiles db ch' u').any (fun f => f.id == c.file_id)) := by
      have hdelc : (deleteFileRows db ch u p).chunks
          = db.chunks.filter (fun c =>
            !((db.files.filter (fileKeyMatch ch u p)).map FileRow.id).contains
              c.file_id) := rfl
      rw [hdelc, List.filter_filter]
      apply List.filter_congr
      intro k _
      by_cases hp : (tenantFiles db ch' u').any (fun f => f.id == k.file_id) = true
      · rw [hp]
        rcases List.any_eq_true.mp hp with ⟨f, hfmem, hfid⟩
        have hnc : ((db.files.filter (fileKeyMatch ch u p)).map FileRow.id).contains
            k.file_id = false := by
          by_contra hcon
          rw [Bool.not_eq_false] at hcon
          have hmem := List.elem_iff.mp hcon
          rcases List.mem_map.mp hmem with ⟨g, hgmem, hgid⟩
          have hgdb : g ∈ db.files := (List.filter_sublist _).mem hgmem
          have hK : fileKeyMatch ch u p g = true := (List.mem_filter.mp hgmem).2
          have hfdb : f ∈ db.files := (List.mem_filter.mp hfmem).1
          have hT' : (f.channel == ch' && f.user_id == u') = true :=
            (List.mem_filter.mp hfmem).2
          rw [beq_iff_eq] at hfid
          have hfg : f = g :=
            List.inj_on_of_nodup_map hwf.1 hfdb hgdb (by rw [hfid, hgid])
          subst hfg
          rw [hTK f hT'] at hK
          exact Bool.false_ne_true hK
        rw [hnc]
        rfl
      · simp only [Bool.not_eq_true] at hp
        rw [hp]
        rfl
    rw [hNCnil, hold, List.append_nil]
  have hvectors : tenantVectors db' ch' u' = tenantVectors db ch' u' := by
    unfold tenantVectors
    rw [hchunks, hdv, List.filter_append]
    have hNVnil : NV.filter (fun v =>
        (tenantChunks db ch' u').any (fun c => c.id == v.chunk_id)) = [] := by
      rw [List.filter_eq_nil_iff]
      intro v hv hpred
      rcases List.any_eq_true.mp hpred with ⟨c, hcmem, hcid⟩
      have hcdb : c ∈ db.chunks := (List.mem_filter.mp hcmem).1
      have := (hwf.2.2.2 c hcdb).1
      rw [beq_iff_eq] at hcid
      have := hNV v hv
      omega
    have hold : ((deleteFileRows db ch u p).vectors).filter (fun v =>
          (tenantChunks db ch' u').any (fun c => c.id == v.chunk_id))
        = db.vectors.filter (fun v =>
          (tenantChunks db ch' u').any (fun c => c.id == v.chunk_id)) := by
      have hdelv : (deleteFileRows db ch u p).vectors
          = db.vectors.filter (fun v =>
            !((db.chunks.filter (fun c =>
                ((db.files.filter (fileKeyMatch ch u p)).map FileRow.id).contains
                  c.file_id)).map ChunkRow.id).contains v.chunk_id) := rfl
      rw [hdelv, List.filter_filter]
      apply List.filter_congr
      intro v _
      by_cases hp : (tenantChunks db ch' u').any (fun c => c.id == v.chunk_id) = true
      · rw [hp]
        rcases List.any_eq_true.mp hp with ⟨c, hcmem, hcid⟩
        have hnc : ((db.chunks.filter (fun c =>
            ((db.files.filter (fileKeyMatch ch u p)).map FileRow.id).contains
              c.file_id)).map ChunkRow.id).contains v.chunk_id = false := by
          by_contra hcon
          rw [Bool.not_eq_false] at hcon
          have hmem := List.elem_iff.mp hcon
          rcases List.mem_map.mp hmem with ⟨d, hdmem, hdid⟩
          have hddb : d ∈ db.chunks := (List.filter_sublist _).mem hdmem
          have hdvic : ((db.files.filter (fileKeyMatch ch u p)).map
              FileRow.id).contains d.file_id = true := (List.mem_filter.mp hdmem).2
          have hcdb : c ∈ db.chunks := (List.mem_filter.mp hcmem).1
          have hcten : (tenantFiles db ch' u').any (fun f => f.id == c.file_id) = true :=
            (List.mem_filter.mp hcmem).2
          rw [beq_iff_eq] at hcid
          have hcd : c = d :=
            List.inj_on_of_nodup_map hwf.2.1 hcdb hddb (by rw [hcid, hdid])
          subst hcd
          rcases List.any_eq_true.mp hcten with ⟨f, hfmem, hfid⟩
          rcases List.mem_map.mp (List.elem_iff.mp hdvic) with ⟨g, hgmem, hgid⟩
          have hgdb : g ∈ db.files := (List.filter_sublist _).mem hgmem
          have hK : fileKeyMatch ch u p g = true := (List.mem_filter.mp hgmem).2
          have hfdb : f ∈ db.files := (List.mem_filter.mp hfmem).1
          have hT' : (f.channel == ch' && f.user_id == u') = true :=
            (List.mem_filter.mp hfmem).2
          rw [beq_iff_eq] at hfid
          have hfg : f = g :=
            List.inj_on_of_nodup_map hwf.1 hfdb hgdb (by rw [hfid, hgid])
          subst hfg
          rw [hTK f hT'] at hK
          exact Bool.false_ne_true hK
        rw [hnc]
        rfl
      · simp only [Bool.not_eq_true] at hp
        rw [hp]
        rfl
    rw [hNVnil, hold, List.append_nil]
  exact ⟨hfiles, hchunks, hvectors⟩

theorem indexStep_tenant_frame (embed : EmbedFn) (ch u : String) (now : Nat)
    (st : IndexSt) (e : FsEntry) (hwf : st.db.Wf) (ch' u' : String)
    (hne : ¬(ch' = ch ∧ u' = u)) :
    tenantFiles (indexStep embed ch u now st e).db ch' u'
      = tenantFiles st.db ch' u'
    ∧ tenantChunks (indexStep embed ch u now st e).db ch' u'
      = tenantChunks st.db ch' u'
    ∧ tenantVectors (indexStep embed ch u now st e).db ch' u'
      = tenantVectors st.db ch' u' := by
  by_cases herr : st.err = none
  · cases hc : e.content with
    | none =>
      rw [indexStep_none embed ch u now st e hc]
      exact ⟨rfl, rfl, rfl⟩
    | some c =>
      by_cases hh : storedHash st.db ch u e.path = some (hashHex (md5_hash c))
      · rw [indexStep_skip embed ch u now st e c hc hh]
        exact ⟨rfl, rfl, rfl⟩
      · cases hembed : embed ((chunk_text c).map TextChunk.text) with
        | error msg =>
          have hdb := indexStep_error_db embed ch u now st e c msg herr hc hh hembed
          refine tenant_frame_general st.db ch u e.path ch' u' hwf hne _
            (FileRow.mk st.db.nextId ch u e.path (hashHex (md5_hash c)) now)
            rfl rfl [] (fun k hk => absurd hk (List.not_mem_nil k))
            [] (fun v hv => absurd hv (List.not_mem_nil v)) ?_ ?_ ?_
          · rw [hdb]
          · rw [hdb, List.append_nil]
          · rw [hdb, List.append_nil]
        | ok embs =>
          have hdb := indexStep_okresult_db embed ch u now st e c embs herr hc hh
            hembed
          refine tenant_frame_general st.db ch u e.path ch' u' hwf hne _
            (FileRow.mk st.db.nextId ch u e.path (hashHex (md5_hash c)) now)
            rfl rfl
            (((chunk_text c).zip embs).enum.map (fun ie =>
              ChunkRow.mk (st.db.nextId + 1 + ie.1) st.db.nextId ie.1
                ie.2.1.text ie.2.1.start_line ie.2.1.end_line)) ?_
            (((chunk_text c).zip embs).enum.map (fun ie =>
              VectorRow.mk (st.db.nextId + 1 + ie.1) ie.2.2)) ?_ ?_ ?_ ?_
          · intro k hk
            rcases List.mem_map.mp hk with ⟨ie, _, rfl⟩
            rfl
          · intro v hv
            rcases List.mem_map.mp hv with ⟨ie, _, rfl⟩
            show st.db.nextId + 1 ≤ st.db.nextId + 1 + ie.1
            omega
          · rw [hdb]
          · rw [hdb]
          · rw [hdb]
  · rw [indexStep_err_some embed ch u now st e herr]
    exact ⟨rfl, rfl, rfl⟩

theorem index_fold_frame (embed : EmbedFn) (ch u : String) (now : Nat)
    (ch' u' : String) (hne : ¬(ch' = ch ∧ u' = u)) :
    ∀ (entries : List FsEntry) (st : IndexSt), st.db.Wf →
    tenantFiles (entries.foldl (indexStep embed ch u now) st).db ch' u'
      = tenantFiles st.db ch' u'
    ∧ tenantChunks (entries.foldl (indexStep embed ch u now) st).db ch' u'
      = tenantChunks st.db ch' u'
    ∧ tenantVectors (entries.foldl (indexStep embed ch u now) st).db ch' u'
      = tenantVectors st.db ch' u' := by
  intro entries
  induction entries with
  | nil => intro st _; exact ⟨rfl, rfl, rfl⟩
  | cons e rest ih =>
    intro st hwf
    rw [List.foldl_cons]
    have hstep := indexStep_tenant_frame embed ch u now st e hwf ch' u' hne
    have hrec := ih (indexStep embed ch u now st e)
      (indexStep_wf embed ch u now st e hwf)
    exact ⟨hrec.1.trans hstep.1, hrec.2.1.trans hstep.2.1,
      hrec.2.2.trans hstep.2.2⟩

/-- C10: `index_user_memories(channel, user_id)` never modifies another
tenant's stored data: for every tenant `(ch', u')` different from the indexed
one, the `memory_files`, `memory_chunks` and `memory_vectors` rows belonging
to that tenant are exactly as before the call — every delete and insert is
scoped by the given channel, user and path. This holds for any embedding
outcome, including failures. -/
theorem index_user_memories_tenant_frame (embed : EmbedFn) (ch u : String)
    (now : Nat) (db : Db) (entries : List FsEntry) (hwf : db.Wf)
    (ch' u' : String) (hne : ¬(ch' = ch ∧ u' = u)) :
    tenantFiles (index_user_memories embed ch u now db entries).db ch' u'
      = tenantFiles db ch' u'
    ∧ tenantChunks (index_user_memories embed ch u now db entries).db ch' u'
      = tenantChunks db ch' u'
    ∧ tenantVectors (index_user_memories embed ch u now db entries).db ch' u'
      = tenantVectors db ch' u' :=
  index_fold_frame embed ch u now ch' u' hne entries ⟨db, [], none⟩ hwf

/-- Witness for C10: indexing a file for tenant `("tg", "u1")` leaves the
stored rows of tenant `("tg", "u2")` untouched. -/
theorem index_user_memories_tenant_frame_witness :
    tenantFiles (index_user_memories (okEmbed (fun _ => [(0 : ℚ)])) "tg" "u1" 5
        ⟨[⟨1, "tg", "u2", "n.md", "h", 0⟩], [⟨2, 1, 0, "hi".data, 1, 1⟩],
          [⟨2, [(1 : ℚ)]⟩], 3⟩ [⟨"m.md", some "x".data⟩]).db "tg" "u2"
      = tenantFiles ⟨[⟨1, "tg", "u2", "n.md", "h", 0⟩], [⟨2, 1, 0, "hi".data, 1, 1⟩],
          [⟨2, [(1 : ℚ)]⟩], 3⟩ "tg" "u2"
    ∧ tenantChunks (index_user_memories (okEmbed (fun _ => [(0 : ℚ)])) "tg" "u1" 5
        ⟨[⟨1, "tg", "u2", "n.md", "h", 0⟩], [⟨2, 1, 0, "hi".data, 1, 1⟩],
          [⟨2, [(1 : ℚ)]⟩], 3⟩ [⟨"m.md", some "x".data⟩]).db "tg" "u2"
      = tenantChunks ⟨[⟨1, "tg", "u2", "n.md", "h", 0⟩], [⟨2, 1, 0, "hi".data, 1, 1⟩],
          [⟨2, [(1 : ℚ)]⟩], 3⟩ "tg" "u2"
    ∧ tenantVectors (index_user_memories (okEmbed (fun _ => [(0 : ℚ)])) "tg" "u1" 5
        ⟨[⟨1, "tg", "u2", "n.md", "h", 0⟩], [⟨2, 1, 0, "hi".data, 1, 1⟩],
          [⟨2, [(1 : ℚ)]⟩], 3⟩ [⟨"m.md", some "x".data⟩]).db "tg" "u2"
      = tenantVectors ⟨[⟨1, "tg", "u2", "n.md", "h", 0⟩], [⟨2, 1, 0, "hi".data, 1, 1⟩],
          [⟨2, [(1 : ℚ)]⟩], 3⟩ "tg" "u2" :=
  index_user_memories_tenant_frame (okEmbed (fun _ => [(0 : ℚ)])) "tg" "u1" 5
    ⟨[⟨1, "tg", "u2", "n.md", "h", 0⟩], [⟨2, 1, 0, "hi".data, 1, 1⟩],
      [⟨2, [(1 : ℚ)]⟩], 3⟩ [⟨"m.md", some "x".data⟩]
    ⟨by decide, by decide, by decide, by decide⟩ "tg" "u2" (by decide)

/-- Every search result originates from one joined row of the tenant's data. -/
theorem mem_search_origin (dist : List ℚ → List ℚ → ℚ) (db : Db)
    (ch u : String) (qe : List ℚ) (k : Nat) (r : MemorySearchResult)
    (hr : r ∈ search dist db ch u qe k) :
    ∃ v ∈ db.vectors, ∃ c ∈ db.chunks, ∃ f ∈ db.files,
      c.id = v.chunk_id ∧ f.id = c.file_id ∧
      f.channel = ch ∧ f.user_id = u ∧
      r.path = f.path ∧ r.chunk = c.content ∧
      r.score = 1 - dist v.embedding qe := by
  unfold search at hr
  rcases List.mem_map.mp hr with ⟨x, hx, hxr⟩
  have hx1 : x ∈ List.insertionSort rowLe (searchScored dist db ch u qe) :=
    (List.take_sublist _ _).mem hx
  have hx2 := (List.perm_insertionSort rowLe _).mem_iff.mp hx1
  unfold searchScored at hx2
  rcases List.mem_map.mp hx2 with ⟨row, hrow, hrowx⟩
  have hrow1 : row ∈ searchRows db := (List.mem_filter.mp hrow).1
  have hrow2 := (List.mem_filter.mp hrow).2
  simp only [Bool.and_eq_true, beq_iff_eq] at hrow2
  unfold searchRows at hrow1
  rcases List.mem_flatMap.mp hrow1 with ⟨v, hv, hrest⟩
  rcases List.mem_flatMap.mp hrest with ⟨c, hcf, hrest2⟩
  rcases List.mem_map.mp hrest2 with ⟨f, hff, hrowval⟩
  have hc : c ∈ db.chunks := (List.mem_filter.mp hcf).1
  have hcid : c.id = v.chunk_id := by
    have := (List.mem_filter.mp hcf).2
    rwa [beq_iff_eq] at this
  have hf : f ∈ db.files := (List.mem_filter.mp hff).1
  have hfid : f.id = c.file_id := by
    have := (List.mem_filter.mp hff).2
    rwa [beq_iff_eq] at this
  subst hrowval
  subst hrowx
  subst hxr
  exact ⟨v, hv, c, hc, f, hf, hcid, hfid, hrow2.1, hrow2.2, rfl, rfl, rfl⟩

/-- C4: `search(channel, user_id, query, k)` returns at most `k` results,
ordered by similarity descending; every returned score equals
`1 - distance(stored_embedding, query_embedding)` for the stored embedding
it reports; a tenant with no indexed content gets the empty list, not an
error. -/
theorem search_contract (dist : List ℚ → List ℚ → ℚ) (db : Db) (ch u : String)
    (qe : List ℚ) (k : Nat) :
    (search dist db ch u qe k).length ≤ k
    ∧ (search dist db ch u qe k).Pairwise (fun a b => b.score ≤ a.score)
    ∧ (∀ r ∈ search dist db ch u qe k, ∃ v ∈ db.vectors, ∃ c ∈ db.chunks,
        c.id = v.chunk_id ∧ r.chunk = c.content ∧
        r.score = 1 - dist v.embedding qe)
    ∧ (tenantFiles db ch u = [] → search dist db ch u qe k = []) := by
  refine ⟨?_, ?_, ?_, ?_⟩
  · unfold search
    rw [List.length_map]
    exact List.length_take_le _ _
  · unfold search
    exact List.Pairwise.map _ (fun a b hab => sub_le_sub_left hab 1)
      (List.Pairwise.sublist (List.take_sublist _ _)
        (List.sorted_insertionSort rowLe _))
  · intro r hr
    rcases mem_search_origin dist db ch u qe k r hr with
      ⟨v, hv, c, hc, _, _, hcid, _, _, _, _, hchunk, hscore⟩
    exact ⟨v, hv, c, hc, hcid, hchunk, hscore⟩
  · intro hempty
    unfold search searchScored
    have hrows : (searchRows db).filter (fun r =>
        r.1.channel == ch && r.1.user_id == u) = [] := by
      rw [List.filter_eq_nil_iff]
      intro row hrow hpred
      unfold searchRows at hrow
      rcases List.mem_flatMap.mp hrow with ⟨v, _, hrest⟩
      rcases List.mem_flatMap.mp hrest with ⟨c, _, hrest2⟩
      rcases List.mem_map.mp hrest2 with ⟨f, hff, hrowval⟩
      have hf : f ∈ db.files := (List.mem_filter.mp hff).1
      have : f ∈ tenantFiles db ch u := by
        unfold tenantFiles
        rw [List.mem_filter]
        refine ⟨hf, ?_⟩
        subst hrowval
        exact hpred
      rw [hempty] at this
      exact absurd this (List.not_mem_nil f)
    rw [hrows]
    simp

/-- Witness for C4: a search on an empty store returns the empty list. -/
theorem search_contract_witness :
    search (fun _ _ => 0) ⟨[], [], [], 1⟩ "telegram" "42" [] 3 = [] :=
  (search_contract (fun _ _ => 0) ⟨[], [], [], 1⟩ "telegram" "42" [] 3).2.2.2
    (by decide)

/-- C5: search never crosses tenant boundaries — every returned result
originates from a `memory_files` row whose channel and user id equal the
query's, so another tenant's stored rows never appear in the results. -/
theorem search_tenant_isolation (dist : List ℚ → List ℚ → ℚ) (db : Db)
    (ch u : String) (qe : List ℚ) (k : Nat) (r : MemorySearchResult)
    (hr : r ∈ search dist db ch u qe k) :
    ∃ f ∈ db.files, f.channel = ch ∧ f.user_id = u ∧ r.path = f.path ∧
      ∃ c ∈ db.chunks, c.file_id = f.id ∧ r.chunk = c.content := by
  rcases mem_search_origin dist db ch u qe k r hr with
    ⟨v, hv, c, hc, f, hf, hcid, hfid, hfc, hfu, hpath, hchunk, hscore⟩
  exact ⟨f, hf, hfc, hfu, hpath, c, hc, hfid.symm, hchunk⟩

theorem search_eval_concrete :
    search (fun _ _ => 0)
        ⟨[⟨1, "a", "u1", "n.md", "h", 0⟩], [⟨2, 1, 0, "hello".data, 1, 1⟩],
          [⟨2, [(1 : ℚ)]⟩], 3⟩ "a" "u1" [] 5
      = [⟨"n.md", "hello".data, 1⟩] := by
  unfold search
  have h1 : (List.insertionSort rowLe (searchScored (fun _ _ => 0)
      ⟨[⟨1, "a", "u1", "n.md", "h", 0⟩], [⟨2, 1, 0, "hello".data, 1, 1⟩],
        [⟨2, [(1 : ℚ)]⟩], 3⟩ "a" "u1" [])).take 5
      = [("n.md", "hello".data, (0 : ℚ))] := by decide
  rw [h1]
  norm_num

/-- Witness for C5 at a concrete one-row store. -/
theorem search_tenant_isolation_witness :
    ∃ f ∈ ([⟨1, "a", "u1", "n.md", "h", 0⟩] : List FileRow),
      f.channel = "a" ∧ f.user_id = "u1" ∧
      (MemorySearchResult.mk "n.md" "hello".data 1).path = f.path ∧
      ∃ c ∈ ([⟨2, 1, 0, "hello".data, 1, 1⟩] : List ChunkRow),
        c.file_id = f.id ∧
        (MemorySearchResult.mk "n.md" "hello".data 1).chunk = c.content :=
  search_tenant_isolation (fun _ _ => 0)
    ⟨[⟨1, "a", "u1", "n.md", "h", 0⟩], [⟨2, 1, 0, "hello".data, 1, 1⟩],
      [⟨2, [(1 : ℚ)]⟩], 3⟩ "a" "u1" [] 5
    (MemorySearchResult.mk "n.md" "hello".data 1)
    (by rw [search_eval_concrete]; exact List.mem_singleton.mpr rfl)
